import Mathlib

/-!
Formal model of the WinUTF8Console header (utf8stream.h): the code-point level
UTF-8/UTF-16/UTF-32 conversion engine (class UConverter together with the strict
free function string_to_u32string) and the buffered console reader (the
FastString-based class UTF8ConsoleInput at lines 531-764).

Bytes and code units are modelled as Nat.  The source runs on Windows where
char is signed; the two places whose observable behaviour depends on that
(the comparison `ch == EOF` in fill_buffer_, and the char-to-int promotion in
readLines) are modelled explicitly via byte 255 and the toSigned map.
-/

namespace UConverter

/-- UTF-8 decoder, from UConverter::decode_ (utf8stream.h lines 242-283).
The argument is the byte range src..end as a list; the result is the decoded
code point paired with the bytes remaining after the advanced src pointer. -/
def decode_ (l : List Nat) : Nat × List Nat :=
  match l with
  | [] => (0xFFFD, [])
  | b1 :: r1 =>
    if b1 < 0x80 then (b1, r1)
    else if b1 &&& 0xE0 = 0xC0 then
      match r1 with
      | [] => (0xFFFD, r1)
      | b2 :: r2 =>
        if ¬ (b2 &&& 0xC0 = 0x80) then (0xFFFD, r2)
        else (((b1 &&& 0x1F) <<< 6) ||| (b2 &&& 0x3F), r2)
    else if b1 &&& 0xF0 = 0xE0 then
      match r1 with
      | b2 :: b3 :: r3 =>
        if ¬ (b2 &&& 0xC0 = 0x80) ∨ ¬ (b3 &&& 0xC0 = 0x80) then (0xFFFD, r3)
        else ((((b1 &&& 0x0F) <<< 12) ||| ((b2 &&& 0x3F) <<< 6)) ||| (b3 &&& 0x3F), r3)
      | _ => (0xFFFD, r1)
    else if b1 &&& 0xF8 = 0xF0 then
      match r1 with
      | b2 :: b3 :: b4 :: r4 =>
        if ¬ (b2 &&& 0xC0 = 0x80) ∨ ¬ (b3 &&& 0xC0 = 0x80) ∨ ¬ (b4 &&& 0xC0 = 0x80) then
          (0xFFFD, r4)
        else
          (((((b1 &&& 0x07) <<< 18) ||| ((b2 &&& 0x3F) <<< 12)) |||
            ((b3 &&& 0x3F) <<< 6)) ||| (b4 &&& 0x3F), r4)
      | _ => (0xFFFD, r1)
    else (0xFFFD, r1)

/-- UTF-8 encoder, from UConverter::encode_ (lines 286-316): the bytes written
to dest, in order.  Invalid code points above 0x10FFFF re-encode 0xFFFD. -/
def encode_ (code_point : Nat) : List Nat :=
  if code_point ≤ 0x7F then
    [code_point]
  else if code_point ≤ 0x7FF then
    [0xC0 ||| (code_point >>> 6), 0x80 ||| (code_point &&& 0x3F)]
  else if code_point ≤ 0xFFFF then
    let cp := if 0xD800 ≤ code_point ∧ code_point ≤ 0xDFFF then 0xFFFD else code_point
    [0xE0 ||| (cp >>> 12), 0x80 ||| ((cp >>> 6) &&& 0x3F), 0x80 ||| (cp &&& 0x3F)]
  else if code_point ≤ 0x10FFFF then
    [0xF0 ||| (code_point >>> 18), 0x80 ||| ((code_point >>> 12) &&& 0x3F),
     0x80 ||| ((code_point >>> 6) &&& 0x3F), 0x80 ||| (code_point &&& 0x3F)]
  else
    encode_ 0xFFFD
termination_by code_point
decreasing_by omega

/-- Loop body of the whole-sequence lenient UTF-8 → UTF-32 conversion, from
UConverter::convert_(const std::string&, std::u32string&) (lines 347-374):
ASCII fast path, otherwise decode_ one character and append the code point.
The fuel argument only bounds the number of loop iterations so that the
recursion is structural; decode_snd_length_le shows each iteration consumes
at least one byte, so convert_8_32 below supplies enough fuel. -/
def convert_8_32F : Nat → List Nat → List Nat
  | 0, _ => []
  | _, [] => []
  | fuel + 1, b :: rest =>
    if b < 0x80 then b :: convert_8_32F fuel rest
    else
      let d := decode_ (b :: rest)
      d.1 :: convert_8_32F fuel d.2

/-- Whole-sequence lenient UTF-8 → UTF-32 conversion (lines 347-374). -/
def convert_8_32 (l : List Nat) : List Nat := convert_8_32F l.length l

/-- Whole-sequence UTF-32 → UTF-16 conversion, from
UConverter::convert_(const std::u32string&, std::wstring&) (lines 486-513):
BMP units pass through, surrogate-range and above-0x10FFFF code points are
replaced by 0xFFFD, supplementary-plane code points become surrogate pairs. -/
def convert_32_16 : List Nat → List Nat
  | [] => []
  | ch :: rest =>
    (if ch ≤ 0xFFFF then
      if 0xD800 ≤ ch ∧ ch ≤ 0xDFFF then [0xFFFD] else [ch]
    else
      if ch > 0x10FFFF then [0xFFFD]
      else
        let c := ch - 0x10000
        [0xD800 + (c >>> 10), 0xDC00 + (c &&& 0x3FF)]) ++ convert_32_16 rest

/-- Whole-sequence UTF-16 → UTF-32 conversion, from
UConverter::convert_(const std::wstring&, std::u32string&) (lines 376-417):
surrogate pairs are composed (skipping the consumed low unit), lone high or
low surrogates become 0xFFFD, BMP units pass through. -/
def convert_16_32 : List Nat → List Nat
  | [] => []
  | [u] =>
    if 0xD800 ≤ u ∧ u ≤ 0xDBFF then [0xFFFD]
    else if 0xDC00 ≤ u ∧ u ≤ 0xDFFF then [0xFFFD]
    else [u]
  | u :: u2 :: rest2 =>
    if 0xD800 ≤ u ∧ u ≤ 0xDBFF then
      if 0xDC00 ≤ u2 ∧ u2 ≤ 0xDFFF then
        (0x10000 + ((u - 0xD800) <<< 10) + (u2 - 0xDC00)) :: convert_16_32 rest2
      else
        0xFFFD :: convert_16_32 (u2 :: rest2)
    else if 0xDC00 ≤ u ∧ u ≤ 0xDFFF then
      0xFFFD :: convert_16_32 (u2 :: rest2)
    else
      u :: convert_16_32 (u2 :: rest2)

end UConverter

/-- Strict UTF-8 → UTF-32 conversion, from the free function string_to_u32string
(lines 1269-1331).  Throwing UException is modelled as Except.error carrying the
exception message; on error no partial output is produced.  The fuel argument
only bounds the loop iterations (each iteration consumes at least one byte);
string_to_u32string below supplies l.length, which always suffices. -/
def string_to_u32stringF : Nat → List Nat → Except String (List Nat)
  | 0, _ => .ok []
  | _, [] => .ok []
  | fuel + 1, ch :: rest =>
    if ch ≤ 0x7F then
      (string_to_u32stringF fuel rest).map fun u => ch :: u
    else if 0xBF < ch ∧ ch ≤ 0xDF then
      match rest with
      | [] => .error "Invalid UTF-8 string"
      | ch2 :: rest2 =>
        if ch2 < 0x80 ∨ ch2 > 0xBF then .error "Invalid UTF-8 string"
        else
          (string_to_u32stringF fuel rest2).map
            fun u => (((ch &&& 0x1F) <<< 6) ||| (ch2 &&& 0x3F)) :: u
    else if ch ≤ 0xEF then
      match rest with
      | ch2 :: ch3 :: rest3 =>
        if ch2 < 0x80 ∨ ch2 > 0xBF ∨ ch3 < 0x80 ∨ ch3 > 0xBF then
          .error "Invalid UTF-8 string: invalid byte sequence"
        else
          let codepoint := (((ch &&& 0x0F) <<< 12) ||| ((ch2 &&& 0x3F) <<< 6)) ||| (ch3 &&& 0x3F)
          if codepoint < 0x800 ∨ (0xD800 ≤ codepoint ∧ codepoint ≤ 0xDFFF) then
            .error "Invalid UTF-8 string: invalid codepoint"
          else (string_to_u32stringF fuel rest3).map fun u => codepoint :: u
      | _ => .error "Invalid UTF-8 string: not enough bytes"
    else if ch ≤ 0xF7 then
      match rest with
      | ch2 :: ch3 :: ch4 :: rest4 =>
        if ch2 < 0x80 ∨ ch2 > 0xBF ∨ ch3 < 0x80 ∨ ch3 > 0xBF ∨ ch4 < 0x80 ∨ ch4 > 0xBF then
          .error "Invalid UTF-8 string: invalid byte sequence"
        else
          let codepoint :=
            ((((ch &&& 0x07) <<< 18) ||| ((ch2 &&& 0x3F) <<< 12)) |||
              ((ch3 &&& 0x3F) <<< 6)) ||| (ch4 &&& 0x3F)
          if codepoint < 0x10000 ∨ codepoint > 0x10FFFF then
            .error "Invalid UTF-8 string: invalid codepoint"
          else (string_to_u32stringF fuel rest4).map fun u => codepoint :: u
      | _ => .error "Invalid UTF-8 string: not enough bytes"
    else .error "Invalid UTF-8 string"

/-- Strict UTF-8 → UTF-32 conversion (lines 1269-1331). -/
def string_to_u32string (l : List Nat) : Except String (List Nat) :=
  string_to_u32stringF l.length l

deriving instance DecidableEq for Except

/-- FastString::push_back (lines 154-162): appends one byte, except that the
NUL character is silently ignored. -/
def FastString.push_back (s : List Nat) (c : Nat) : List Nat :=
  if c = 0 then s else s ++ [c]

/-- UTF8ConsoleInput state (lines 531-534): the cursor pos, the FastString
buffer of bytes already pulled from stdin, and src, the bytes that stdin
still holds (the external byte source, consumed from the front by fread). -/
structure UTF8ConsoleInput where
  pos : Nat
  buffer : List Nat
  src : List Nat
deriving DecidableEq

namespace UTF8ConsoleInput

/-- The chunk size of fill_buffer_ (line 532). -/
def chunkSize : Nat := 1024

/-- UTF8ConsoleInput::is_whitespace_ (lines 542-545). -/
def is_whitespace_ (ch : Nat) : Bool :=
  ch == 32 || ch == 9 || ch == 10 || ch == 13 || ch == 12 || ch == 11

/-- The for loop of UTF8ConsoleInput::fill_buffer_ (lines 557-565): reads up
to the given number of bytes one at a time, stops after pushing a line feed,
stops when fread yields nothing (src exhausted).  On Windows char is signed,
so the source comparison `ch == EOF` is true exactly for byte 0xFF: the loop
then returns false (third component) with the chunk so far discarded by the
caller, although the bytes read so far have been consumed from the source.
Returns (chunk, remaining source, flag where false models `return false`). -/
def fillLoop : Nat → List Nat → List Nat → List Nat × List Nat × Bool
  | 0, src, chunk => (chunk, src, true)
  | _ + 1, [], chunk => (chunk, [], true)
  | i + 1, ch :: rest, chunk =>
    if ch = 255 then (chunk, rest, false)
    else
      let chunk2 := FastString.push_back chunk ch
      if ch = 10 then (chunk2, rest, true)
      else fillLoop i rest chunk2

/-- UTF8ConsoleInput::fill_buffer_ (lines 557-569): runs the read loop; fails
if the loop hit the EOF-compare (byte 0xFF) or if the chunk is empty, and
otherwise appends the chunk to the buffer. -/
def fill_buffer_ (r : UTF8ConsoleInput) : Bool × UTF8ConsoleInput :=
  let res := fillLoop chunkSize r.src []
  if res.2.2 = false then (false, { r with src := res.2.1 })
  else if res.1 = [] then (false, { r with src := res.2.1 })
  else (true, { r with buffer := r.buffer ++ res.1, src := res.2.1 })

/-- UTF8ConsoleInput::get (lines 609-612): refill on demand, end marker none
models the EOF return, otherwise return buffer[pos] and advance pos. -/
def get (r : UTF8ConsoleInput) : Option Nat × UTF8ConsoleInput :=
  if r.buffer.length ≤ r.pos then
    let fb := fill_buffer_ r
    if fb.1 = false ∨ fb.2.buffer.length ≤ fb.2.pos then (none, fb.2)
    else (some (fb.2.buffer.getD fb.2.pos 0), { fb.2 with pos := fb.2.pos + 1 })
  else (some (r.buffer.getD r.pos 0), { r with pos := r.pos + 1 })

/-- UTF8ConsoleInput::clear (lines 587-591): pos := 0 and buffer released. -/
def clear (r : UTF8ConsoleInput) : UTF8ConsoleInput :=
  { r with pos := 0, buffer := [] }

/-- The leading-whitespace skip loop of readWord<std::string> (lines 649-651):
`while ((ch = get()) != EOF && is_whitespace_(ch)) {}`.  Returns the final ch
(none models EOF) and the reader state.  The fuel argument only bounds the
iterations so that the recursion is structural; callers pass bigFuel, which
always suffices because every successful get shortens the remaining input. -/
def skipWSF : Nat → UTF8ConsoleInput → Option Nat × UTF8ConsoleInput
  | 0, r => (none, r)
  | fuel + 1, r =>
    let g := r.get
    match g.1 with
    | none => (none, g.2)
    | some ch => if is_whitespace_ ch then skipWSF fuel g.2 else (some ch, g.2)

/-- The word-collecting loop of readWord<std::string> (lines 655-657):
`while ((ch = get()) != EOF && !is_whitespace_(ch)) result += ch;`.
Returns (result, final ch, reader state); fuel as in skipWSF. -/
def collectWordF : Nat → List Nat → UTF8ConsoleInput →
    List Nat × Option Nat × UTF8ConsoleInput
  | 0, acc, r => (acc, none, r)
  | fuel + 1, acc, r =>
    let g := r.get
    match g.1 with
    | none => (acc, none, g.2)
    | some ch =>
      if is_whitespace_ ch then (acc, some ch, g.2)
      else collectWordF fuel (FastString.push_back acc ch) g.2

/-- Fuel that always suffices for one reader loop: more than the number of
bytes still reachable (pending buffer bytes plus the whole source). -/
def bigFuel (r : UTF8ConsoleInput) : Nat := (r.buffer.length - r.pos) + r.src.length + 1

/-- UTF8ConsoleInput::readWord<std::string> (lines 645-663): skip leading
whitespace, push the first non-whitespace byte back (pos--), collect the
word, and push the terminating whitespace byte back unless it is EOF or a
line feed. -/
def readWord (r : UTF8ConsoleInput) : List Nat × UTF8ConsoleInput :=
  let s := skipWSF (bigFuel r) r
  let r2 := match s.1 with
            | some _ => { s.2 with pos := s.2.pos - 1 }
            | none => s.2
  let w := collectWordF (bigFuel r2) [] r2
  let r4 := match w.2.1 with
            | some ch => if ch ≠ 10 then { w.2.2 with pos := w.2.2.pos - 1 } else w.2.2
            | none => w.2.2
  (w.1, r4)

/-- The loop of readLine<std::string> (lines 687-697):
`while ((ch = get()) != EOF && ch != '\n') { if (ch != '\r') result += ch; }`.
Fuel as in skipWSF. -/
def readLineF : Nat → List Nat → UTF8ConsoleInput → List Nat × UTF8ConsoleInput
  | 0, acc, r => (acc, r)
  | fuel + 1, acc, r =>
    let g := r.get
    match g.1 with
    | none => (acc, g.2)
    | some ch =>
      if ch = 10 then (acc, g.2)
      else readLineF fuel (if ch = 13 then acc else FastString.push_back acc ch) g.2

/-- UTF8ConsoleInput::readLine<std::string> (lines 687-697). -/
def readLine (r : UTF8ConsoleInput) : List Nat × UTF8ConsoleInput :=
  readLineF (bigFuel r) [] r

/-- The value of a byte read back from the buffer as the signed char that the
source stores (Windows char is signed, so bytes at 128..255 promote to
negative ints in comparisons such as `ch == break_word`). -/
def toSigned (b : Nat) : Int := if b < 128 then (b : Int) else (b : Int) - 256

/-- Truncation of an int back to the byte stored by FastString::push_back
(two's complement, as `static_cast<char>` on the target). -/
def toByte (i : Int) : Nat := (i % 256).toNat

/-- The loop of readLines<std::string> (lines 723-741).  ch is the char
returned by get promoted to int (EOF is -1).  none models fuel exhaustion;
the source loop does not terminate at end of input when break_word never
matches (it keeps pushing the EOF char into the line), which is why this
loop, unlike the others, must surface fuel exhaustion. -/
def readLinesF : Nat → Bool → Int → List (List Nat) → List Nat → UTF8ConsoleInput →
    Option (List (List Nat) × UTF8ConsoleInput)
  | 0, _, _, _, _, _ => none
  | fuel + 1, empty_break, break_word, acc, line, r =>
    let g := r.get
    let ch : Int := match g.1 with | none => -1 | some b => toSigned b
    if ch = 13 then readLinesF fuel empty_break break_word acc line g.2
    else if ch = 10 ∨ ch = break_word then
      if empty_break = true ∧ line = [] then some (acc, g.2)
      else if ch = break_word then some (acc ++ [line], g.2)
      else readLinesF fuel empty_break break_word (acc ++ [line]) [] g.2
    else readLinesF fuel empty_break break_word acc (FastString.push_back line (toByte ch)) g.2

/-- UTF8ConsoleInput::readLines<std::string> (lines 723-741), run with fuel
that suffices whenever break_word is EOF (-1). -/
def readLines (empty_break : Bool) (break_word : Int) (r : UTF8ConsoleInput) :
    Option (List (List Nat) × UTF8ConsoleInput) :=
  readLinesF (bigFuel r) empty_break break_word [] [] r

/-- Specification side of claim C4, following the claim text (not the source):
the word readWord returns is the maximal run of non-whitespace bytes after the
skipped leading whitespace of the pending input. -/
def specWord (s : List Nat) : List Nat :=
  (s.dropWhile is_whitespace_).takeWhile (fun b => ! is_whitespace_ b)

/-- Specification side of claim C4, following the claim text (not the source):
after readWord the pending input starts at the terminating whitespace byte,
which stays unconsumed unless it is a line feed, which is consumed. -/
def specWordRest (s : List Nat) : List Nat :=
  if ((s.dropWhile is_whitespace_).dropWhile (fun b => ! is_whitespace_ b)).head? =
      some 10 then
    ((s.dropWhile is_whitespace_).dropWhile (fun b => ! is_whitespace_ b)).drop 1
  else
    (s.dropWhile is_whitespace_).dropWhile (fun b => ! is_whitespace_ b)

/-- Specification side of claim C7, following the claim text (not the source):
readLine returns the bytes before the next line feed with every carriage
return dropped. -/
def specLine (s : List Nat) : List Nat :=
  (s.takeWhile (fun b => b != 10)).filter (fun b => b != 13)

/-- Specification side of claim C7: the pending input after readLine, with the
terminating line feed consumed. -/
def specLineRest (s : List Nat) : List Nat :=
  (s.dropWhile (fun b => b != 10)).drop 1

/-- The bytes the reader has not yet consumed: the pending part of the buffer
followed by the untouched source. -/
def remaining (r : UTF8ConsoleInput) : List Nat := r.buffer.drop r.pos ++ r.src

end UTF8ConsoleInput

/-- A byte stream that exercises none of the signed-char edge cases: no NUL
(dropped by FastString::push_back) and no 0xFF (mistaken for EOF by
fill_buffer_'s `ch == EOF` comparison). -/
def CleanStream (l : List Nat) : Prop := ∀ b ∈ l, b ≠ 0 ∧ b ≠ 255

instance : DecidablePred CleanStream := fun l =>
  List.decidableBAll (fun b => b ≠ 0 ∧ b ≠ 255) l

/-- Replacing the already-consumed prefix of the buffer: the reader state with
extra consumed bytes b in front of the buffer and the cursor moved past them. -/
def shiftState (b : List Nat) (r : UTF8ConsoleInput) : UTF8ConsoleInput :=
  { pos := b.length + r.pos, buffer := b ++ r.buffer, src := r.src }

/-! ### Arithmetic facts about the bit manipulations of the codec -/

namespace UConverter

/-- The advanced src pointer of decode_ never moves back: the remaining bytes
after decoding one character from b :: rest are a suffix bounded by rest. -/
theorem decode_snd_length_le (b : Nat) (rest : List Nat) :
    ((decode_ (b :: rest)).2).length ≤ rest.length := by
  rcases rest with _ | ⟨b2, _ | ⟨b3, _ | ⟨b4, r4⟩⟩⟩ <;>
    simp only [decode_] <;> (repeat' split) <;> simp <;> omega

theorem lor_shl (k x y : Nat) (hy : y < 2 ^ k) : (x <<< k) ||| y = x * 2 ^ k + y := by
  rw [Nat.shiftLeft_eq, Nat.mul_comm]
  exact (Nat.mul_add_lt_is_or hy x).symm

theorem lor_shl6 (x y : Nat) (hy : y < 64) : (x <<< 6) ||| y = x * 64 + y := by
  have h26 : (2 : Nat) ^ 6 = 64 := by norm_num
  have h := lor_shl 6 x y (by rw [h26]; exact hy)
  rw [h26] at h
  exact h

theorem lor_shl12 (x y : Nat) (hy : y < 4096) : (x <<< 12) ||| y = x * 4096 + y := by
  have h2 : (2 : Nat) ^ 12 = 4096 := by norm_num
  have h := lor_shl 12 x y (by rw [h2]; exact hy)
  rw [h2] at h
  exact h

theorem lor_shl18 (x y : Nat) (hy : y < 262144) : (x <<< 18) ||| y = x * 262144 + y := by
  have h2 : (2 : Nat) ^ 18 = 262144 := by norm_num
  have h := lor_shl 18 x y (by rw [h2]; exact hy)
  rw [h2] at h
  exact h

theorem and63_eq_mod (x : Nat) : x &&& 63 = x % 64 := by
  have h := Nat.and_pow_two_sub_one_eq_mod x 6
  norm_num at h
  exact h

theorem and1023_eq_mod (x : Nat) : x &&& 1023 = x % 1024 := by
  have h := Nat.and_pow_two_sub_one_eq_mod x 10
  norm_num at h
  exact h

theorem shr6_eq_div (x : Nat) : x >>> 6 = x / 64 := by
  have h := Nat.shiftRight_eq_div_pow x 6
  norm_num at h
  exact h

theorem shr10_eq_div (x : Nat) : x >>> 10 = x / 1024 := by
  have h := Nat.shiftRight_eq_div_pow x 10
  norm_num at h
  exact h

theorem shr12_eq_div (x : Nat) : x >>> 12 = x / 4096 := by
  have h := Nat.shiftRight_eq_div_pow x 12
  norm_num at h
  exact h

theorem shr18_eq_div (x : Nat) : x >>> 18 = x / 262144 := by
  have h := Nat.shiftRight_eq_div_pow x 18
  norm_num at h
  exact h

theorem two_lead : ∀ q < 32, 192 ||| q = 192 + q ∧ (192 + q) &&& 224 = 192 ∧
    (192 + q) &&& 31 = q := by decide

theorem cont_byte : ∀ s < 64, 128 ||| s = 128 + s ∧ (128 + s) &&& 192 = 128 ∧
    (128 + s) &&& 63 = s := by decide

theorem three_lead : ∀ a < 16, 224 ||| a = 224 + a ∧ ¬ (224 + a) &&& 224 = 192 ∧
    (224 + a) &&& 240 = 224 ∧ (224 + a) &&& 15 = a := by decide

theorem four_lead : ∀ a < 8, 240 ||| a = 240 + a ∧ ¬ (240 + a) &&& 224 = 192 ∧
    ¬ (240 + a) &&& 240 = 224 ∧ (240 + a) &&& 248 = 240 ∧ (240 + a) &&& 7 = a := by decide

/-! ### Shape of encode_ on each code point class -/

theorem encode_spec_1 (cp : Nat) (h : cp ≤ 0x7F) : encode_ cp = [cp] := by
  simp [encode_, h]

theorem encode_spec_2 (cp : Nat) (h0 : ¬ cp ≤ 0x7F) (h : cp ≤ 0x7FF) :
    encode_ cp = [192 + cp / 64, 128 + cp % 64] := by
  have e1 := (two_lead (cp / 64) (by omega)).1
  have f1 := (cont_byte (cp % 64) (by omega)).1
  simp [encode_, h0, h, shr6_eq_div, and63_eq_mod, e1, f1]

theorem encode_spec_3 (cp : Nat) (h0 : ¬ cp ≤ 0x7FF) (h : cp ≤ 0xFFFF)
    (hs : ¬ (0xD800 ≤ cp ∧ cp ≤ 0xDFFF)) :
    encode_ cp = [224 + cp / 4096, 128 + cp / 64 % 64, 128 + cp % 64] := by
  have e1 := (three_lead (cp / 4096) (by omega)).1
  have f1 := (cont_byte (cp / 64 % 64) (by omega)).1
  have f2 := (cont_byte (cp % 64) (by omega)).1
  simp [encode_, show ¬ cp ≤ 0x7F by omega, h0, h, hs, shr12_eq_div, shr6_eq_div,
    and63_eq_mod, e1, f1, f2]

theorem encode_spec_4 (cp : Nat) (h0 : ¬ cp ≤ 0xFFFF) (h : cp ≤ 0x10FFFF) :
    encode_ cp =
      [240 + cp / 262144, 128 + cp / 4096 % 64, 128 + cp / 64 % 64, 128 + cp % 64] := by
  have e1 := (four_lead (cp / 262144) (by omega)).1
  have f1 := (cont_byte (cp / 4096 % 64) (by omega)).1
  have f2 := (cont_byte (cp / 64 % 64) (by omega)).1
  have f3 := (cont_byte (cp % 64) (by omega)).1
  simp [encode_, show ¬ cp ≤ 0x7F by omega, show ¬ cp ≤ 0x7FF by omega, h0, h,
    shr18_eq_div, shr12_eq_div, shr6_eq_div, and63_eq_mod, e1, f1, f2, f3]

/-! ### decode_ on each encoded shape -/

theorem decode_two (q s : Nat) (hq : q < 32) (hs : s < 64) (rest : List Nat) :
    decode_ ((192 + q) :: (128 + s) :: rest) = (q * 64 + s, rest) := by
  obtain ⟨-, e2, e3⟩ := two_lead q hq
  obtain ⟨-, f2, f3⟩ := cont_byte s hs
  simp [decode_, show ¬ (192 + q < 128) by omega, e2, f2, e3, f3, lor_shl6 q s hs]

theorem decode_three (a b c : Nat) (ha : a < 16) (hb : b < 64) (hc : c < 64)
    (rest : List Nat) :
    decode_ ((224 + a) :: (128 + b) :: (128 + c) :: rest) =
      (a * 4096 + (b * 64 + c), rest) := by
  obtain ⟨-, e2, e3, e4⟩ := three_lead a ha
  obtain ⟨-, f2, f3⟩ := cont_byte b hb
  obtain ⟨-, g2, g3⟩ := cont_byte c hc
  simp [decode_, show ¬ (224 + a < 128) by omega, e2, e3, e4, f2, f3, g2, g3,
    Nat.lor_assoc, lor_shl6 b c hc, lor_shl12 a (b * 64 + c) (by omega)]

theorem decode_four (a b c d : Nat) (ha : a < 8) (hb : b < 64) (hc : c < 64)
    (hd : d < 64) (rest : List Nat) :
    decode_ ((240 + a) :: (128 + b) :: (128 + c) :: (128 + d) :: rest) =
      (a * 262144 + (b * 4096 + (c * 64 + d)), rest) := by
  obtain ⟨-, e2, e3, e4, e5⟩ := four_lead a ha
  obtain ⟨-, f2, f3⟩ := cont_byte b hb
  obtain ⟨-, g2, g3⟩ := cont_byte c hc
  obtain ⟨-, k2, k3⟩ := cont_byte d hd
  simp [decode_, show ¬ (240 + a < 128) by omega, e2, e3, e4, e5, f2, f3, g2, g3,
    k2, k3, Nat.lor_assoc, lor_shl6 c d hd, lor_shl12 b (c * 64 + d) (by omega),
    lor_shl18 a (b * 4096 + (c * 64 + d)) (by omega)]

/-- decode_ undoes encode_ on every valid code point, leaving trailing bytes
untouched. -/
theorem decode_encode (cp : Nat) (h1 : cp ≤ 0x10FFFF)
    (h2 : ¬ (0xD800 ≤ cp ∧ cp ≤ 0xDFFF)) (rest : List Nat) :
    decode_ (encode_ cp ++ rest) = (cp, rest) := by
  by_cases c1 : cp ≤ 0x7F
  · rw [encode_spec_1 cp c1]
    simp [decode_, show cp < 128 by omega]
  · by_cases c2 : cp ≤ 0x7FF
    · rw [encode_spec_2 cp c1 c2]
      simp only [List.cons_append, List.nil_append]
      rw [decode_two (cp / 64) (cp % 64) (by omega) (by omega) rest]
      congr 1
      omega
    · by_cases c3 : cp ≤ 0xFFFF
      · rw [encode_spec_3 cp c2 c3 h2]
        simp only [List.cons_append, List.nil_append]
        rw [decode_three (cp / 4096) (cp / 64 % 64) (cp % 64) (by omega) (by omega)
          (by omega) rest]
        congr 1
        omega
      · rw [encode_spec_4 cp c3 h1]
        simp only [List.cons_append, List.nil_append]
        rw [decode_four (cp / 262144) (cp / 4096 % 64) (cp / 64 % 64) (cp % 64)
          (by omega) (by omega) (by omega) (by omega) rest]
        congr 1
        omega

theorem convert_8_32F_nil (fuel : Nat) : convert_8_32F fuel [] = [] := by
  cases fuel <;> rfl

/-- If encode_ cp gives one multi-byte character that decode_ maps back to cp,
then the whole-sequence lenient conversion round-trips the singleton. -/
theorem convert_8_32_single (cp b1 : Nat) (tl : List Nat) (he : encode_ cp = b1 :: tl)
    (hb : ¬ b1 < 128) (hd : decode_ (b1 :: tl) = (cp, [])) :
    convert_8_32 (encode_ cp) = [cp] := by
  rw [convert_8_32, he]
  simp [convert_8_32F, hb, hd, convert_8_32F_nil]

/-- convert_16_32 recombines a surrogate pair produced from a supplementary
code point. -/
theorem convert_16_32_pair (x y : Nat) (hx : x ≤ 1023) (hy : y ≤ 1023) :
    convert_16_32 [0xD800 + x, 0xDC00 + y] = [0x10000 + (x * 1024 + y)] := by
  have c1 : 0xD800 ≤ 0xD800 + x ∧ 0xD800 + x ≤ 0xDBFF := by omega
  have c2 : 0xDC00 ≤ 0xDC00 + y ∧ 0xDC00 + y ≤ 0xDFFF := by omega
  simp [convert_16_32, c1, c2, Nat.shiftLeft_eq]
  omega

end UConverter

/-! ### Claims about the transcoding engine -/

namespace UConverter

/-- The UTF-8 half of the round trip: lenient whole-sequence decoding of the
encoding of a valid code point gives back the singleton. -/
theorem roundtrip_8 (cp : Nat) (h1 : cp ≤ 0x10FFFF)
    (h2 : ¬ (0xD800 ≤ cp ∧ cp ≤ 0xDFFF)) :
    convert_8_32 (encode_ cp) = [cp] := by
  by_cases c1 : cp ≤ 0x7F
  · rw [convert_8_32, encode_spec_1 cp c1]
    simp [convert_8_32F, show cp < 128 by omega, convert_8_32F_nil]
  · by_cases c2 : cp ≤ 0x7FF
    · have hd := decode_two (cp / 64) (cp % 64) (by omega) (by omega) []
      rw [show cp / 64 * 64 + cp % 64 = cp from by omega] at hd
      exact convert_8_32_single cp _ _ (encode_spec_2 cp c1 c2) (by omega) hd
    · by_cases c3 : cp ≤ 0xFFFF
      · have hd := decode_three (cp / 4096) (cp / 64 % 64) (cp % 64) (by omega)
          (by omega) (by omega) []
        rw [show cp / 4096 * 4096 + (cp / 64 % 64 * 64 + cp % 64) = cp from by omega] at hd
        exact convert_8_32_single cp _ _ (encode_spec_3 cp c2 c3 h2) (by omega) hd
      · have hd := decode_four (cp / 262144) (cp / 4096 % 64) (cp / 64 % 64) (cp % 64)
          (by omega) (by omega) (by omega) (by omega) []
        rw [show cp / 262144 * 262144 +
            (cp / 4096 % 64 * 4096 + (cp / 64 % 64 * 64 + cp % 64)) = cp
          from by omega] at hd
        exact convert_8_32_single cp _ _ (encode_spec_4 cp c3 h1) (by omega) hd

/-- The UTF-16 half of the round trip: composing the decomposition of a valid
code point gives back the singleton. -/
theorem roundtrip_16 (cp : Nat) (h1 : cp ≤ 0x10FFFF)
    (h2 : ¬ (0xD800 ≤ cp ∧ cp ≤ 0xDFFF)) :
    convert_16_32 (convert_32_16 [cp]) = [cp] := by
  by_cases hb : cp ≤ 0xFFFF
  · have h16 : convert_32_16 [cp] = [cp] := by simp [convert_32_16, hb, h2]
    rw [h16]
    simp [convert_16_32, show ¬ (0xD800 ≤ cp ∧ cp ≤ 0xDBFF) by omega,
      show ¬ (0xDC00 ≤ cp ∧ cp ≤ 0xDFFF) by omega]
  · have h16 : convert_32_16 [cp] =
        [0xD800 + (cp - 0x10000) / 1024, 0xDC00 + (cp - 0x10000) % 1024] := by
      simp [convert_32_16, hb, show ¬ cp > 0x10FFFF by omega, shr10_eq_div,
        and1023_eq_mod]
    rw [h16, convert_16_32_pair ((cp - 0x10000) / 1024) ((cp - 0x10000) % 1024)
      (by omega) (by omega),
      show 0x10000 + ((cp - 0x10000) / 1024 * 1024 + (cp - 0x10000) % 1024) = cp
        from by omega]

end UConverter

/-- C1: for every code point cp in 0..0x10FFFF outside the surrogate range
0xD800..0xDFFF, encoding cp to UTF-8 and then leniently decoding the bytes
yields exactly cp again, and decomposing cp to UTF-16 units and composing
those units yields exactly cp again. -/
theorem claim_C1_roundtrip (cp : Nat) (h1 : cp ≤ 0x10FFFF)
    (h2 : ¬ (0xD800 ≤ cp ∧ cp ≤ 0xDFFF)) :
    UConverter.convert_8_32 (UConverter.encode_ cp) = [cp] ∧
    UConverter.convert_16_32 (UConverter.convert_32_16 [cp]) = [cp] :=
  ⟨UConverter.roundtrip_8 cp h1 h2, UConverter.roundtrip_16 cp h1 h2⟩

/-- C1 witness: the round trip at the concrete code point U+1F600. -/
theorem claim_C1_roundtrip_witness :
    (0x1F600 ≤ 0x10FFFF ∧ ¬ (0xD800 ≤ 0x1F600 ∧ 0x1F600 ≤ 0xDFFF)) ∧
    UConverter.convert_8_32 (UConverter.encode_ 0x1F600) = [0x1F600] ∧
    UConverter.convert_16_32 (UConverter.convert_32_16 [0x1F600]) = [0x1F600] :=
  ⟨⟨by norm_num, by norm_num⟩,
    (claim_C1_roundtrip 0x1F600 (by norm_num) (by norm_num)).1,
    (claim_C1_roundtrip 0x1F600 (by norm_num) (by norm_num)).2⟩

/-- C2 counterexample: the claim is false on the code.  Lenient decoding of
the overlong pair C0 80 does not produce the replacement character (decode_
has no overlong check, so it yields code point 0), and the strict conversion
does not fail on it either (its overlong checks cover only the 3- and 4-byte
branches). -/
theorem claim_C2_counterexample :
    ¬ (UConverter.convert_8_32 [0xC0, 0x80] = [0xFFFD] ∧
       ∃ e, string_to_u32string [0xC0, 0x80] = Except.error e) := by
  rintro ⟨h, -⟩
  exact absurd h (by decide)

/-- C2 amended: lenient decoding of the overlong pair C0 80 produces exactly
one code point, namely U+0000 (the overlong encoding is accepted, not
replaced), and the strict conversion also accepts it, returning U+0000 with
no error. -/
theorem claim_C2_amended :
    UConverter.convert_8_32 [0xC0, 0x80] = [0x0] ∧
    string_to_u32string [0xC0, 0x80] = Except.ok [0x0] := by
  constructor <;> decide

/-- Each iteration of the lenient conversion loop consumes at least one byte
and emits exactly one code point, so the output never exceeds the input. -/
theorem convert_8_32F_length_le (fuel : Nat) (l : List Nat) :
    (UConverter.convert_8_32F fuel l).length ≤ l.length := by
  induction fuel generalizing l with
  | zero => cases l <;> simp [UConverter.convert_8_32F]
  | succ n ih =>
    cases l with
    | nil => simp [UConverter.convert_8_32F]
    | cons b rest =>
      by_cases hb : b < 128
      · simpa [UConverter.convert_8_32F, hb] using ih rest
      · have h1 := UConverter.decode_snd_length_le b rest
        have h2 := ih (UConverter.decode_ (b :: rest)).2
        simp only [UConverter.convert_8_32F, if_neg hb, List.length_cons]
        omega

/-- C3: the lenient 8-bit to 32-bit conversion is a total function (it is
defined for every byte sequence and never reports an error), and its output
never has more code points than the input has bytes. -/
theorem claim_C3_lenient_total_length (l : List Nat) :
    (UConverter.convert_8_32 l).length ≤ l.length :=
  convert_8_32F_length_le l.length l

/-- C5: the single-character UTF-8 encoder is a total function and emits 1
byte for cp ≤ 0x7F, 2 bytes for cp ≤ 0x7FF, 3 bytes for cp ≤ 0xFFFF (with
surrogate-range inputs replaced by 0xFFFD before encoding), 4 bytes for
cp ≤ 0x10FFFF, and replaces any cp > 0x10FFFF by 0xFFFD (3 bytes); U+1F600
encodes to exactly 4 UTF-8 bytes and to exactly 2 UTF-16 units forming a
valid high/low surrogate pair. -/
theorem claim_C5_encoder_shape :
    (∀ cp : Nat, cp ≤ 0x7F → (UConverter.encode_ cp).length = 1) ∧
    (∀ cp : Nat, 0x7F < cp → cp ≤ 0x7FF → (UConverter.encode_ cp).length = 2) ∧
    (∀ cp : Nat, 0x7FF < cp → cp ≤ 0xFFFF → (UConverter.encode_ cp).length = 3) ∧
    (∀ cp : Nat, 0xD800 ≤ cp → cp ≤ 0xDFFF →
      UConverter.encode_ cp = UConverter.encode_ 0xFFFD) ∧
    (∀ cp : Nat, 0xFFFF < cp → cp ≤ 0x10FFFF → (UConverter.encode_ cp).length = 4) ∧
    (∀ cp : Nat, 0x10FFFF < cp →
      UConverter.encode_ cp = UConverter.encode_ 0xFFFD ∧
        (UConverter.encode_ cp).length = 3) ∧
    (UConverter.encode_ 0x1F600).length = 4 ∧
    UConverter.convert_32_16 [0x1F600] = [0xD83D, 0xDE00] ∧
    (0xD800 ≤ 0xD83D ∧ 0xD83D ≤ 0xDBFF ∧ 0xDC00 ≤ 0xDE00 ∧ 0xDE00 ≤ 0xDFFF) := by
  refine ⟨?_, ?_, ?_, ?_, ?_, ?_, ?_, by decide, by decide⟩
  · intro cp h
    simp [UConverter.encode_, h]
  · intro cp h0 h
    simp [UConverter.encode_, show ¬ cp ≤ 0x7F by omega, h]
  · intro cp h0 h
    simp [UConverter.encode_, show ¬ cp ≤ 0x7F by omega, show ¬ cp ≤ 0x7FF by omega, h]
  · intro cp h0 h
    simp [UConverter.encode_, show ¬ cp ≤ 0x7F by omega, show ¬ cp ≤ 0x7FF by omega,
      show cp ≤ 0xFFFF by omega, show 0xD800 ≤ cp ∧ cp ≤ 0xDFFF from ⟨h0, h⟩]
  · intro cp h0 h
    simp [UConverter.encode_, show ¬ cp ≤ 0x7F by omega, show ¬ cp ≤ 0x7FF by omega,
      show ¬ cp ≤ 0xFFFF by omega, h]
  · intro cp h0
    constructor
    · simp [UConverter.encode_, show ¬ cp ≤ 0x7F by omega, show ¬ cp ≤ 0x7FF by omega,
        show ¬ cp ≤ 0xFFFF by omega, show ¬ cp ≤ 0x10FFFF by omega]
    · simp [UConverter.encode_, show ¬ cp ≤ 0x7F by omega, show ¬ cp ≤ 0x7FF by omega,
        show ¬ cp ≤ 0xFFFF by omega, show ¬ cp ≤ 0x10FFFF by omega]
  · simp [UConverter.encode_]

/-- C5 witness: the byte and unit counts at concrete code points of each
class (A, é, 中, a surrogate value, U+1F600, and one value above 0x10FFFF). -/
theorem claim_C5_encoder_shape_witness :
    (UConverter.encode_ 0x41).length = 1 ∧
    (UConverter.encode_ 0xE9).length = 2 ∧
    (UConverter.encode_ 0x4E2D).length = 3 ∧
    UConverter.encode_ 0xD800 = UConverter.encode_ 0xFFFD ∧
    (UConverter.encode_ 0x1F600).length = 4 ∧
    UConverter.encode_ 0x110000 = UConverter.encode_ 0xFFFD :=
  ⟨claim_C5_encoder_shape.1 0x41 (by norm_num),
    claim_C5_encoder_shape.2.1 0xE9 (by norm_num) (by norm_num),
    claim_C5_encoder_shape.2.2.1 0x4E2D (by norm_num) (by norm_num),
    claim_C5_encoder_shape.2.2.2.1 0xD800 (by norm_num) (by norm_num),
    claim_C5_encoder_shape.2.2.2.2.1 0x1F600 (by norm_num) (by norm_num),
    (claim_C5_encoder_shape.2.2.2.2.2.1 0x110000 (by norm_num)).1⟩

/-! ### Reader: foundational facts about refilling and get -/

namespace UTF8ConsoleInput

theorem push_back_length_le (chunk : List Nat) (b : Nat) :
    (FastString.push_back chunk b).length ≤ chunk.length + 1 := by
  unfold FastString.push_back
  split <;> simp

theorem fillLoop_src_decr (fuel : Nat) : ∀ (src chunk : List Nat),
    (fillLoop fuel src chunk).2.1.length + (fillLoop fuel src chunk).1.length ≤
      src.length + chunk.length ∧
    (fillLoop fuel src chunk).2.1.length ≤ src.length := by
  induction fuel with
  | zero => intro src chunk; simp [fillLoop]
  | succ n ih =>
    intro src chunk
    cases src with
    | nil => simp [fillLoop]
    | cons b rest =>
      by_cases h255 : b = 255
      · subst h255
        norm_num [fillLoop]
      · by_cases h10 : b = 10
        · subst h10
          have hp := push_back_length_le chunk 10
          norm_num [fillLoop, h255]
          omega
        · have hp := push_back_length_le chunk b
          have hih := ih rest (FastString.push_back chunk b)
          simp only [fillLoop, if_neg h255, if_neg h10, List.length_cons]
          omega

theorem fillLoop_clean (fuel : Nat) : ∀ (src acc : List Nat), CleanStream src →
    ∃ k, k ≤ src.length ∧ (1 ≤ fuel → src ≠ [] → 1 ≤ k) ∧
      fillLoop fuel src acc = (acc ++ src.take k, src.drop k, true) := by
  induction fuel with
  | zero =>
    intro src acc _
    exact ⟨0, by simp, by omega, by simp [fillLoop]⟩
  | succ n ih =>
    intro src acc h
    cases src with
    | nil => exact ⟨0, by simp, by simp, by simp [fillLoop]⟩
    | cons b rest =>
      have hb := h b (by simp)
      have hpush : FastString.push_back acc b = acc ++ [b] := by
        simp [FastString.push_back, hb.1]
      by_cases h10 : b = 10
      · subst h10
        refine ⟨1, by simp, fun _ _ => le_refl 1, ?_⟩
        simp [fillLoop, hb.2, hpush]
      · obtain ⟨k, hk1, hk2, hk3⟩ := ih rest (acc ++ [b])
          (fun x hx => h x (by simp [hx]))
        refine ⟨k + 1, by simpa using hk1, fun _ _ => by omega, ?_⟩
        simp [fillLoop, hb.2, h10, hpush, hk3, List.take_succ_cons]

theorem fill_buffer_clean (r : UTF8ConsoleInput) (hc : CleanStream r.src) :
    (r.src = [] ∧ r.fill_buffer_ = (false, { r with src := [] })) ∨
    (∃ k, 1 ≤ k ∧ k ≤ r.src.length ∧
      r.fill_buffer_ =
        (true, { r with buffer := r.buffer ++ r.src.take k, src := r.src.drop k })) := by
  obtain ⟨k, hk1, hk2, hk3⟩ := fillLoop_clean chunkSize r.src [] hc
  by_cases hsrc : r.src = []
  · left
    refine ⟨hsrc, ?_⟩
    rw [hsrc] at hk3 hk1
    have hk0 : k = 0 := by simp at hk1; omega
    rw [hk0] at hk3
    simp only [List.take_nil, List.append_nil, List.drop_nil] at hk3
    simp [fill_buffer_, hsrc, hk3]
  · right
    have hk : 1 ≤ k := hk2 (by norm_num [chunkSize]) hsrc
    refine ⟨k, hk, hk1, ?_⟩
    have hne : r.src.take k ≠ [] := by
      cases hs2 : r.src with
      | nil => exact absurd hs2 hsrc
      | cons b rest =>
        cases k with
        | zero => omega
        | succ m => simp [hs2]
    simp only [fill_buffer_, hk3, List.nil_append]
    simp [hne]

theorem remaining_nil_parts (r : UTF8ConsoleInput) (h : r.remaining = []) :
    r.buffer.drop r.pos = [] ∧ r.src = [] :=
  List.append_eq_nil.mp h

theorem get_of_remaining_nil (r : UTF8ConsoleInput) (hp : r.pos ≤ r.buffer.length)
    (h : r.remaining = []) : r.get = (none, { r with src := [] }) := by
  obtain ⟨h1, h2⟩ := remaining_nil_parts r h
  have hple : r.buffer.length ≤ r.pos := by
    have := congrArg List.length h1
    simp at this
    omega
  rcases fill_buffer_clean r (by rw [h2]; intro b hb; cases hb) with ⟨-, hfb⟩ | ⟨k, hk1, hk2, -⟩
  · simp [get, hple, hfb]
  · rw [h2] at hk2
    simp at hk2
    omega

theorem get_of_remaining_cons (r : UTF8ConsoleInput) (c : Nat) (t : List Nat)
    (hp : r.pos ≤ r.buffer.length) (hc : CleanStream r.remaining)
    (h : r.remaining = c :: t) :
    ∃ r2, r.get = (some c, r2) ∧ r2.remaining = t ∧ r2.pos ≤ r2.buffer.length ∧
      1 ≤ r2.pos ∧ r2.buffer.drop (r2.pos - 1) ++ r2.src = c :: t ∧
      ∃ ext, r2.buffer = r.buffer ++ ext := by
  by_cases hlt : r.pos < r.buffer.length
  · -- byte already in the buffer
    have hdrop : r.buffer.drop r.pos = r.buffer[r.pos] :: r.buffer.drop (r.pos + 1) :=
      List.drop_eq_getElem_cons hlt
    rw [remaining, hdrop, List.cons_append] at h
    have hcv : r.buffer[r.pos] = c := (List.cons.injEq _ _ _ _ ▸ h).1
    have ht : r.buffer.drop (r.pos + 1) ++ r.src = t := (List.cons.injEq _ _ _ _ ▸ h).2
    refine ⟨{ r with pos := r.pos + 1 }, ?_, ?_, ?_, ?_, ?_, [], by simp⟩
    · simp [get, show ¬ r.buffer.length ≤ r.pos by omega, List.getD_eq_getElem?_getD,
        List.getElem?_eq_getElem hlt, hcv]
    · simpa [remaining] using ht
    · simpa using hlt
    · simp
    · simpa [hdrop, hcv] using h
  · -- cursor at the end: the byte comes from a refill
    have hpe : r.pos = r.buffer.length := by omega
    have hdrop : r.buffer.drop r.pos = [] := by rw [hpe]; exact List.drop_length r.buffer
    have hsrc_eq : r.src = c :: t := by rw [remaining, hdrop] at h; simpa using h
    have hcs : CleanStream r.src := by
      intro b hb
      exact hc b (by rw [remaining, hdrop]; simpa using hb)
    rcases fill_buffer_clean r hcs with ⟨h1, -⟩ | ⟨k, hk1, hk2, hfb⟩
    · rw [h1] at hsrc_eq; cases hsrc_eq
    · have htake : r.src.take k = c :: t.take (k - 1) := by
        rw [hsrc_eq, List.take_cons hk1]
      have hdropk : r.src.drop k = t.drop (k - 1) := by
        rw [hsrc_eq]
        cases k with
        | zero => omega
        | succ m => simp
      refine ⟨{ r with buffer := r.buffer ++ r.src.take k, src := r.src.drop k, pos := r.pos + 1 }, ?_, ?_, ?_, ?_, ?_, r.src.take k, by simp⟩
      · have hlen2 : ¬ (r.buffer ++ r.src.take k).length ≤ r.pos := by
          have : (r.src.take k).length = k := by
            rw [List.length_take]
            omega
          simp [this]
          omega
        have hval : (r.buffer ++ r.src.take k)[r.buffer.length]?.getD 0 = c := by
          rw [List.getElem?_append_right (le_refl r.buffer.length)]
          simp [htake]
        simp [get, hpe, hfb, hlen2, hval, show k ≠ 0 by omega,
          show r.src ≠ [] by rw [hsrc_eq]; simp]
      · show (r.buffer ++ r.src.take k).drop (r.pos + 1) ++ r.src.drop k = t
        rw [hpe, ← List.drop_drop, List.drop_left, htake, hdropk]
        simp [List.take_append_drop]
      · have : (r.src.take k).length = k := by
          rw [List.length_take]; omega
        simp [this]
        omega
      · simp
      · show (r.buffer ++ r.src.take k).drop (r.pos + 1 - 1) ++ r.src.drop k = c :: t
        rw [Nat.add_sub_cancel, hpe, List.drop_left, htake, hdropk]
        simp [List.take_append_drop]

theorem cleanStream_suffix {l l2 : List Nat} (h : List.Sublist l2 l)
    (hc : CleanStream l) : CleanStream l2 := fun b hb => hc b (h.subset hb)

theorem remaining_length_lt_bigFuel (r : UTF8ConsoleInput) :
    r.remaining.length < bigFuel r := by
  simp [remaining, bigFuel]

theorem skipWSF_spec (fuel : Nat) :
    ∀ r : UTF8ConsoleInput, r.remaining.length < fuel → r.pos ≤ r.buffer.length →
      CleanStream r.remaining →
      ∃ r2, skipWSF fuel r = ((r.remaining.dropWhile is_whitespace_).head?, r2) ∧
        r2.remaining = (r.remaining.dropWhile is_whitespace_).drop 1 ∧
        r2.pos ≤ r2.buffer.length ∧ (∃ ext, r2.buffer = r.buffer ++ ext) ∧
        CleanStream r2.remaining ∧
        (r.remaining.dropWhile is_whitespace_ ≠ [] →
          1 ≤ r2.pos ∧ r2.buffer.drop (r2.pos - 1) ++ r2.src =
            r.remaining.dropWhile is_whitespace_) := by
  induction fuel with
  | zero => intro r hf _ _; exact absurd hf (by omega)
  | succ n ih =>
    intro r hf hp hc
    cases hrem : r.remaining with
    | nil =>
      have hg := get_of_remaining_nil r hp hrem
      have hrem2 : ({ r with src := [] } : UTF8ConsoleInput).remaining = [] := by
        have := (remaining_nil_parts r hrem).1
        simp [remaining, this]
      refine ⟨{ r with src := [] }, ?_, ?_, hp, ⟨[], by simp⟩, ?_, ?_⟩
      · simp [skipWSF, hg]
      · simp [hrem2]
      · rw [hrem2]; intro b hb; cases hb
      · simp
    | cons c t =>
      obtain ⟨r2, hg, hrem2, hp2, hpos2, hpb2, ext, hext⟩ :=
        get_of_remaining_cons r c t hp hc hrem
      have hct : CleanStream t := fun b hb =>
        hc b (by rw [hrem]; exact List.mem_cons_of_mem _ hb)
      have hlen : r.remaining.length = t.length + 1 := by rw [hrem]; simp
      by_cases hws : is_whitespace_ c
      · obtain ⟨r3, h1, h2, h3, ⟨ext2, h4⟩, h5, h6⟩ :=
          ih r2 (by rw [hrem2]; omega) hp2 (by rw [hrem2]; exact hct)
        rw [hrem2] at h1 h2 h6
        refine ⟨r3, ?_, ?_, h3, ⟨ext ++ ext2, by rw [h4, hext, List.append_assoc]⟩, h5, ?_⟩
        · rw [List.dropWhile_cons_of_pos hws]
          simp [skipWSF, hg, hws, h1]
        · rw [List.dropWhile_cons_of_pos hws]
          exact h2
        · rw [List.dropWhile_cons_of_pos hws]
          exact h6
      · refine ⟨r2, ?_, ?_, hp2, ⟨ext, hext⟩, ?_, ?_⟩
        · rw [List.dropWhile_cons_of_neg hws]
          simp [skipWSF, hg, hws]
        · rw [List.dropWhile_cons_of_neg hws, hrem2]
          simp
        · rw [hrem2]; exact hct
        · rw [List.dropWhile_cons_of_neg hws]
          intro _
          exact ⟨hpos2, hpb2⟩

theorem collectWordF_spec (fuel : Nat) :
    ∀ (acc : List Nat) (r : UTF8ConsoleInput), r.remaining.length < fuel →
      r.pos ≤ r.buffer.length → CleanStream r.remaining →
      ∃ r2, collectWordF fuel acc r =
          (acc ++ r.remaining.takeWhile (fun b => ! is_whitespace_ b),
            (r.remaining.dropWhile (fun b => ! is_whitespace_ b)).head?, r2) ∧
        r2.remaining = (r.remaining.dropWhile (fun b => ! is_whitespace_ b)).drop 1 ∧
        r2.pos ≤ r2.buffer.length ∧ (∃ ext, r2.buffer = r.buffer ++ ext) ∧
        CleanStream r2.remaining ∧
        (r.remaining.dropWhile (fun b => ! is_whitespace_ b) ≠ [] →
          1 ≤ r2.pos ∧ r2.buffer.drop (r2.pos - 1) ++ r2.src =
            r.remaining.dropWhile (fun b => ! is_whitespace_ b)) := by
  induction fuel with
  | zero => intro acc r hf _ _; exact absurd hf (by omega)
  | succ n ih =>
    intro acc r hf hp hc
    cases hrem : r.remaining with
    | nil =>
      have hg := get_of_remaining_nil r hp hrem
      have hrem2 : ({ r with src := [] } : UTF8ConsoleInput).remaining = [] := by
        have := (remaining_nil_parts r hrem).1
        simp [remaining, this]
      refine ⟨{ r with src := [] }, ?_, ?_, hp, ⟨[], by simp⟩, ?_, ?_⟩
      · simp [collectWordF, hg]
      · simp [hrem2]
      · rw [hrem2]; intro b hb; cases hb
      · simp
    | cons c t =>
      obtain ⟨r2, hg, hrem2, hp2, hpos2, hpb2, ext, hext⟩ :=
        get_of_remaining_cons r c t hp hc hrem
      have hct : CleanStream t := fun b hb =>
        hc b (by rw [hrem]; exact List.mem_cons_of_mem _ hb)
      have hlen : r.remaining.length = t.length + 1 := by rw [hrem]; simp
      by_cases hws : is_whitespace_ c
      · refine ⟨r2, ?_, ?_, hp2, ⟨ext, hext⟩, ?_, ?_⟩
        · rw [List.takeWhile_cons_of_neg (by simp [hws]),
            List.dropWhile_cons_of_neg (by simp [hws])]
          simp [collectWordF, hg, hws]
        · rw [List.dropWhile_cons_of_neg (by simp [hws]), hrem2]
          simp
        · rw [hrem2]; exact hct
        · rw [List.dropWhile_cons_of_neg (by simp [hws])]
          intro _
          exact ⟨hpos2, hpb2⟩
      · have hc0 : c ≠ 0 := (hc c (by rw [hrem]; simp)).1
        have hpush : FastString.push_back acc c = acc ++ [c] := by
          simp [FastString.push_back, hc0]
        obtain ⟨r3, h1, h2, h3, ⟨ext2, h4⟩, h5, h6⟩ :=
          ih (FastString.push_back acc c) r2 (by rw [hrem2]; omega) hp2
            (by rw [hrem2]; exact hct)
        rw [hrem2] at h1 h2 h6
        refine ⟨r3, ?_, ?_, h3, ⟨ext ++ ext2, by rw [h4, hext, List.append_assoc]⟩, h5, ?_⟩
        · rw [List.takeWhile_cons_of_pos (by simp [hws]),
            List.dropWhile_cons_of_pos (by simp [hws])]
          rw [hpush] at h1
          simp [collectWordF, hg, hws, hpush, h1, List.append_assoc]
        · rw [List.dropWhile_cons_of_pos (by simp [hws])]
          exact h2
        · rw [List.dropWhile_cons_of_pos (by simp [hws])]
          exact h6

theorem readLineF_spec (fuel : Nat) :
    ∀ (acc : List Nat) (r : UTF8ConsoleInput), r.remaining.length < fuel →
      r.pos ≤ r.buffer.length → CleanStream r.remaining →
      ∃ r2, readLineF fuel acc r =
          (acc ++ (r.remaining.takeWhile (fun b => b != 10)).filter (fun b => b != 13), r2) ∧
        r2.remaining = (r.remaining.dropWhile (fun b => b != 10)).drop 1 ∧
        r2.pos ≤ r2.buffer.length ∧ (∃ ext, r2.buffer = r.buffer ++ ext) ∧
        CleanStream r2.remaining := by
  induction fuel with
  | zero => intro acc r hf _ _; exact absurd hf (by omega)
  | succ n ih =>
    intro acc r hf hp hc
    cases hrem : r.remaining with
    | nil =>
      have hg := get_of_remaining_nil r hp hrem
      have hrem2 : ({ r with src := [] } : UTF8ConsoleInput).remaining = [] := by
        have := (remaining_nil_parts r hrem).1
        simp [remaining, this]
      refine ⟨{ r with src := [] }, ?_, ?_, hp, ⟨[], by simp⟩, ?_⟩
      · simp [readLineF, hg]
      · simp [hrem2]
      · rw [hrem2]; intro b hb; cases hb
    | cons c t =>
      obtain ⟨r2, hg, hrem2, hp2, hpos2, hpb2, ext, hext⟩ :=
        get_of_remaining_cons r c t hp hc hrem
      have hct : CleanStream t := fun b hb =>
        hc b (by rw [hrem]; exact List.mem_cons_of_mem _ hb)
      have hlen : r.remaining.length = t.length + 1 := by rw [hrem]; simp
      by_cases h10 : c = 10
      · refine ⟨r2, ?_, ?_, hp2, ⟨ext, hext⟩, ?_⟩
        · rw [List.takeWhile_cons_of_neg (by simp [h10])]
          simp [readLineF, hg, h10]
        · rw [List.dropWhile_cons_of_neg (by simp [h10]), hrem2]
          simp
        · rw [hrem2]; exact hct
      · have hc0 : c ≠ 0 := (hc c (by rw [hrem]; simp)).1
        obtain ⟨r3, h1, h2, h3, ⟨ext2, h4⟩, h5⟩ :=
          ih (if c = 13 then acc else FastString.push_back acc c) r2
            (by rw [hrem2]; omega) hp2 (by rw [hrem2]; exact hct)
        rw [hrem2] at h1 h2
        refine ⟨r3, ?_, ?_, h3, ⟨ext ++ ext2, by rw [h4, hext, List.append_assoc]⟩, h5⟩
        · rw [List.takeWhile_cons_of_pos (by simp [h10])]
          have hpush : FastString.push_back acc c = acc ++ [c] := by
            simp [FastString.push_back, hc0]
          by_cases h13 : c = 13
          · subst h13
            rw [if_pos rfl] at h1
            simp [readLineF, hg, List.filter_cons, h1]
          · rw [if_neg h13, hpush] at h1
            simp [readLineF, hg, h10, h13, hpush, List.filter_cons, h1,
              List.append_assoc, show (c != 13) = true from by simp [h13]]
        · rw [List.dropWhile_cons_of_pos (by simp [h10])]
          exact h2

theorem readWord_spec (r : UTF8ConsoleInput) (hp : r.pos ≤ r.buffer.length)
    (hc : CleanStream r.remaining) :
    ∃ r2, readWord r = (specWord r.remaining, r2) ∧
      r2.remaining = specWordRest r.remaining ∧
      r2.pos ≤ r2.buffer.length ∧ CleanStream r2.remaining ∧
      ∃ ext, r2.buffer = r.buffer ++ ext := by
  obtain ⟨r1, hs1, hs2, hs3, ⟨e1, hs4⟩, hs5, hs6⟩ :=
    skipWSF_spec (bigFuel r) r (remaining_length_lt_bigFuel r) hp hc
  cases hhead : (r.remaining.dropWhile is_whitespace_) with
  | nil =>
    rw [hhead] at hs1 hs2 hs6
    simp only [List.head?_nil, List.drop_nil] at hs1 hs2
    obtain ⟨r3, hc1, hc2, hc3, ⟨e2, hc4⟩, hc5, hc6⟩ :=
      collectWordF_spec (bigFuel r1) [] r1 (remaining_length_lt_bigFuel r1) hs3 hs5
    rw [hs2] at hc1 hc2 hc6
    simp only [List.takeWhile_nil, List.dropWhile_nil, List.head?_nil,
      List.drop_nil, List.append_nil] at hc1 hc2 hc6
    refine ⟨r3, ?_, ?_, hc3, hc5, ⟨e1 ++ e2, by rw [hc4, hs4, List.append_assoc]⟩⟩
    · simp [readWord, hs1, hc1, specWord, hhead]
    · rw [hc2, specWordRest, hhead]
      simp
  | cons w ws =>
    rw [hhead] at hs1 hs2 hs6
    obtain ⟨hpos1, hpb1⟩ := hs6 (by simp)
    have hrem1 : ({ r1 with pos := r1.pos - 1 } : UTF8ConsoleInput).remaining = w :: ws := by
      simpa [remaining] using hpb1
    have hclean1 : CleanStream (w :: ws) := by
      rw [← hhead]
      exact cleanStream_suffix (List.dropWhile_sublist _) hc
    obtain ⟨r3, hc1, hc2, hc3, ⟨e2, hc4⟩, hc5, hc6⟩ :=
      collectWordF_spec (bigFuel { r1 with pos := r1.pos - 1 }) []
        { r1 with pos := r1.pos - 1 }
        (remaining_length_lt_bigFuel _) (by simp; omega) (by rw [hrem1]; exact hclean1)
    rw [hrem1] at hc1 hc2 hc6
    have hbuf3 : ∃ ext, r3.buffer = r.buffer ++ ext := by
      obtain ⟨e2', he2'⟩ : ∃ e, r3.buffer = r1.buffer ++ e := ⟨e2, hc4⟩
      exact ⟨e1 ++ e2', by rw [he2', hs4, List.append_assoc]⟩
    cases hterm : ((w :: ws).dropWhile (fun b => ! is_whitespace_ b)).head? with
    | none =>
      have hdw : (w :: ws).dropWhile (fun b => ! is_whitespace_ b) = [] :=
        List.head?_eq_none_iff.mp hterm
      refine ⟨r3, ?_, ?_, hc3, hc5, hbuf3⟩
      · rw [hterm] at hc1
        simp [readWord, hs1, hc1, specWord, hhead]
      · rw [hc2, specWordRest, hhead, hdw]
        simp
    | some ch =>
      obtain ⟨hpos3, hpb3⟩ := hc6 (by
        intro hnil
        rw [hnil] at hterm
        cases hterm)
      by_cases hch : ch = 10
      · subst hch
        refine ⟨r3, ?_, ?_, hc3, hc5, hbuf3⟩
        · rw [hterm] at hc1
          simp [readWord, hs1, hc1, specWord, hhead]
        · rw [hc2, specWordRest, hhead, hterm]
          simp
      · refine ⟨{ r3 with pos := r3.pos - 1 }, ?_, ?_, by simp; omega, ?_, ?_⟩
        · rw [hterm] at hc1
          simp [readWord, hs1, hc1, specWord, hhead, hch]
        · have : ({ r3 with pos := r3.pos - 1 } : UTF8ConsoleInput).remaining =
              (w :: ws).dropWhile (fun b => ! is_whitespace_ b) := by
            simpa [remaining] using hpb3
          rw [this, specWordRest, hhead, hterm]
          simp [hch]
        · have : ({ r3 with pos := r3.pos - 1 } : UTF8ConsoleInput).remaining =
              (w :: ws).dropWhile (fun b => ! is_whitespace_ b) := by
            simpa [remaining] using hpb3
          rw [this, ← hhead]
          exact cleanStream_suffix (List.dropWhile_sublist _)
            (cleanStream_suffix (List.dropWhile_sublist _) hc)
        · obtain ⟨e3, he3⟩ := hbuf3
          exact ⟨e3, by simpa using he3⟩

theorem readLine_spec (r : UTF8ConsoleInput) (hp : r.pos ≤ r.buffer.length)
    (hc : CleanStream r.remaining) :
    ∃ r2, readLine r = (specLine r.remaining, r2) ∧
      r2.remaining = specLineRest r.remaining ∧
      r2.pos ≤ r2.buffer.length ∧ CleanStream r2.remaining ∧
      ∃ ext, r2.buffer = r.buffer ++ ext := by
  obtain ⟨r2, h1, h2, h3, hext, h5⟩ :=
    readLineF_spec (bigFuel r) [] r (remaining_length_lt_bigFuel r) hp hc
  exact ⟨r2, by simpa [readLine, specLine] using h1, by simpa [specLineRest] using h2,
    h3, h5, hext⟩

end UTF8ConsoleInput

namespace UTF8ConsoleInput

theorem fill_buffer_state (r : UTF8ConsoleInput) :
    (r.fill_buffer_).2.pos = r.pos ∧ ∃ e, (r.fill_buffer_).2.buffer = r.buffer ++ e := by
  rcases h : fillLoop chunkSize r.src [] with ⟨chunk, src2, flag⟩
  simp only [fill_buffer_, h]
  split_ifs <;> simp

theorem get_state (r : UTF8ConsoleInput) :
    (r.pos ≤ r.buffer.length → (r.get).2.pos ≤ (r.get).2.buffer.length) ∧
    (∃ e, (r.get).2.buffer = r.buffer ++ e) ∧
    (∀ c r2, r.get = (some c, r2) → 1 ≤ r2.pos) := by
  obtain ⟨hfp, e, hfb⟩ := fill_buffer_state r
  by_cases hle : r.buffer.length ≤ r.pos
  · by_cases hcond : (r.fill_buffer_).1 = false ∨
        (r.fill_buffer_).2.buffer.length ≤ (r.fill_buffer_).2.pos
    · have hget : r.get = (none, (r.fill_buffer_).2) := by
        simp only [get, if_pos hle]
        rw [if_pos hcond]
      refine ⟨?_, ?_, ?_⟩
      · intro hp
        rw [hget, hfb, hfp]
        simp
        omega
      · exact ⟨e, by rw [hget, hfb]⟩
      · intro c r2 hcr
        rw [hget] at hcr
        cases hcr
    · have hget : r.get =
          (some ((r.fill_buffer_).2.buffer.getD (r.fill_buffer_).2.pos 0),
            { (r.fill_buffer_).2 with pos := (r.fill_buffer_).2.pos + 1 }) := by
        simp only [get, if_pos hle]
        rw [if_neg hcond]
      push_neg at hcond
      refine ⟨?_, ?_, ?_⟩
      · intro _
        rw [hget]
        simp
        omega
      · exact ⟨e, by rw [hget]; simpa using hfb⟩
      · intro c r2 hcr
        rw [hget] at hcr
        injection hcr with h1 h2
        rw [← h2]
        simp
  · have hget : r.get = (some (r.buffer.getD r.pos 0), { r with pos := r.pos + 1 }) := by
      simp only [get]
      rw [if_neg hle]
    refine ⟨?_, ⟨[], by rw [hget]; simp⟩, ?_⟩
    · intro _
      rw [hget]
      simp
      omega
    · intro c r2 hcr
      rw [hget] at hcr
      injection hcr with h1 h2
      rw [← h2]
      simp

theorem skipWSF_state (fuel : Nat) : ∀ r : UTF8ConsoleInput,
    ((skipWSF fuel r).2.pos ≤ (skipWSF fuel r).2.buffer.length ∨
      ¬ r.pos ≤ r.buffer.length) ∧
    (∃ e, (skipWSF fuel r).2.buffer = r.buffer ++ e) ∧
    (∀ c r2, skipWSF fuel r = (some c, r2) → 1 ≤ r2.pos) := by
  induction fuel with
  | zero =>
    intro r
    refine ⟨?_, ⟨[], by simp [skipWSF]⟩, ?_⟩
    · by_cases hp : r.pos ≤ r.buffer.length
      · exact Or.inl (by simpa [skipWSF] using hp)
      · exact Or.inr hp
    · intro c r2 h
      simp [skipWSF] at h
  | succ n ih =>
    intro r
    obtain ⟨hg1, ⟨e, hg2⟩, hg3⟩ := get_state r
    rcases hg : r.get with ⟨c?, r1⟩
    rw [hg] at hg1 hg2 hg3
    cases c? with
    | none =>
      have heq : skipWSF (n + 1) r = (none, r1) := by simp [skipWSF, hg]
      refine ⟨?_, ⟨e, by rw [heq]; exact hg2⟩, ?_⟩
      · by_cases hp : r.pos ≤ r.buffer.length
        · exact Or.inl (by rw [heq]; exact hg1 hp)
        · exact Or.inr hp
      · intro c r2 h
        rw [heq] at h
        cases h
    | some c =>
      by_cases hws : is_whitespace_ c
      · have heq : skipWSF (n + 1) r = skipWSF n r1 := by simp [skipWSF, hg, hws]
        obtain ⟨ih1, ⟨e2, ih2⟩, ih3⟩ := ih r1
        refine ⟨?_, ⟨e ++ e2, by rw [heq, ih2, hg2, List.append_assoc]⟩, ?_⟩
        · by_cases hp : r.pos ≤ r.buffer.length
          · rcases ih1 with h | h
            · exact Or.inl (by rw [heq]; exact h)
            · exact absurd (hg1 hp) h
          · exact Or.inr hp
        · intro c2 r2 h
          rw [heq] at h
          exact ih3 c2 r2 h
      · have heq : skipWSF (n + 1) r = (some c, r1) := by simp [skipWSF, hg, hws]
        refine ⟨?_, ⟨e, by rw [heq]; exact hg2⟩, ?_⟩
        · by_cases hp : r.pos ≤ r.buffer.length
          · exact Or.inl (by rw [heq]; exact hg1 hp)
          · exact Or.inr hp
        · intro c2 r2 h
          rw [heq] at h
          injection h with h1 h2
          rw [← h2]
          exact hg3 c r1 rfl

theorem collectWordF_state (fuel : Nat) : ∀ (acc : List Nat) (r : UTF8ConsoleInput),
    ((collectWordF fuel acc r).2.2.pos ≤ (collectWordF fuel acc r).2.2.buffer.length ∨
      ¬ r.pos ≤ r.buffer.length) ∧
    (∃ e, (collectWordF fuel acc r).2.2.buffer = r.buffer ++ e) ∧
    (∀ w c r2, collectWordF fuel acc r = (w, some c, r2) → 1 ≤ r2.pos) := by
  induction fuel with
  | zero =>
    intro acc r
    refine ⟨?_, ⟨[], by simp [collectWordF]⟩, ?_⟩
    · by_cases hp : r.pos ≤ r.buffer.length
      · exact Or.inl (by simpa [collectWordF] using hp)
      · exact Or.inr hp
    · intro w c r2 h
      simp [collectWordF] at h
  | succ n ih =>
    intro acc r
    obtain ⟨hg1, ⟨e, hg2⟩, hg3⟩ := get_state r
    rcases hg : r.get with ⟨c?, r1⟩
    rw [hg] at hg1 hg2 hg3
    cases c? with
    | none =>
      have heq : collectWordF (n + 1) acc r = (acc, none, r1) := by
        simp [collectWordF, hg]
      refine ⟨?_, ⟨e, by rw [heq]; exact hg2⟩, ?_⟩
      · by_cases hp : r.pos ≤ r.buffer.length
        · exact Or.inl (by rw [heq]; exact hg1 hp)
        · exact Or.inr hp
      · intro w c r2 h
        rw [heq] at h
        simp at h
    | some c =>
      by_cases hws : is_whitespace_ c
      · have heq : collectWordF (n + 1) acc r = (acc, some c, r1) := by
          simp [collectWordF, hg, hws]
        refine ⟨?_, ⟨e, by rw [heq]; exact hg2⟩, ?_⟩
        · by_cases hp : r.pos ≤ r.buffer.length
          · exact Or.inl (by rw [heq]; exact hg1 hp)
          · exact Or.inr hp
        · intro w c2 r2 h
          rw [heq] at h
          have h2 : (acc, some c, r1).2.2 = (w, some c2, r2).2.2 := by rw [h]
          simp only at h2
          rw [← h2]
          exact hg3 c r1 rfl
      · have heq : collectWordF (n + 1) acc r =
            collectWordF n (FastString.push_back acc c) r1 := by
          simp [collectWordF, hg, hws]
        obtain ⟨ih1, ⟨e2, ih2⟩, ih3⟩ := ih (FastString.push_back acc c) r1
        refine ⟨?_, ⟨e ++ e2, by rw [heq, ih2, hg2, List.append_assoc]⟩, ?_⟩
        · by_cases hp : r.pos ≤ r.buffer.length
          · rcases ih1 with h | h
            · exact Or.inl (by rw [heq]; exact h)
            · exact absurd (hg1 hp) h
          · exact Or.inr hp
        · intro w c2 r2 h
          rw [heq] at h
          exact ih3 w c2 r2 h

theorem readLineF_state (fuel : Nat) : ∀ (acc : List Nat) (r : UTF8ConsoleInput),
    ((readLineF fuel acc r).2.pos ≤ (readLineF fuel acc r).2.buffer.length ∨
      ¬ r.pos ≤ r.buffer.length) ∧
    (∃ e, (readLineF fuel acc r).2.buffer = r.buffer ++ e) := by
  induction fuel with
  | zero =>
    intro acc r
    refine ⟨?_, ⟨[], by simp [readLineF]⟩⟩
    by_cases hp : r.pos ≤ r.buffer.length
    · exact Or.inl (by simpa [readLineF] using hp)
    · exact Or.inr hp
  | succ n ih =>
    intro acc r
    obtain ⟨hg1, ⟨e, hg2⟩, hg3⟩ := get_state r
    rcases hg : r.get with ⟨c?, r1⟩
    rw [hg] at hg1 hg2
    cases c? with
    | none =>
      have heq : readLineF (n + 1) acc r = (acc, r1) := by simp [readLineF, hg]
      refine ⟨?_, ⟨e, by rw [heq]; exact hg2⟩⟩
      by_cases hp : r.pos ≤ r.buffer.length
      · exact Or.inl (by rw [heq]; exact hg1 hp)
      · exact Or.inr hp
    | some c =>
      by_cases h10 : c = 10
      · have heq : readLineF (n + 1) acc r = (acc, r1) := by simp [readLineF, hg, h10]
        refine ⟨?_, ⟨e, by rw [heq]; exact hg2⟩⟩
        by_cases hp : r.pos ≤ r.buffer.length
        · exact Or.inl (by rw [heq]; exact hg1 hp)
        · exact Or.inr hp
      · have heq : readLineF (n + 1) acc r =
            readLineF n (if c = 13 then acc else FastString.push_back acc c) r1 := by
          simp [readLineF, hg, h10]
        obtain ⟨ih1, ⟨e2, ih2⟩⟩ := ih (if c = 13 then acc else FastString.push_back acc c) r1
        refine ⟨?_, ⟨e ++ e2, by rw [heq, ih2, hg2, List.append_assoc]⟩⟩
        by_cases hp : r.pos ≤ r.buffer.length
        · rcases ih1 with h | h
          · exact Or.inl (by rw [heq]; exact h)
          · exact absurd (hg1 hp) h
        · exact Or.inr hp

theorem readLinesF_state (fuel : Nat) : ∀ (eb : Bool) (bw : Int)
    (acc : List (List Nat)) (line : List Nat) (r : UTF8ConsoleInput)
    (out : List (List Nat) × UTF8ConsoleInput),
    readLinesF fuel eb bw acc line r = some out →
    (out.2.pos ≤ out.2.buffer.length ∨ ¬ r.pos ≤ r.buffer.length) ∧
    ∃ e, out.2.buffer = r.buffer ++ e := by
  induction fuel with
  | zero => intro eb bw acc line r out h; simp [readLinesF] at h
  | succ n ih =>
    intro eb bw acc line r out h
    obtain ⟨hg1, ⟨e, hg2⟩, -⟩ := get_state r
    rcases hg : r.get with ⟨c?, r1⟩
    rw [hg] at hg1 hg2
    have hmain : ∀ ch : Int,
        (if ch = 13 then readLinesF n eb bw acc line r1
         else if ch = 10 ∨ ch = bw then
           if eb = true ∧ line = [] then some (acc, r1)
           else if ch = bw then some (acc ++ [line], r1)
           else readLinesF n eb bw (acc ++ [line]) [] r1
         else readLinesF n eb bw acc (FastString.push_back line (toByte ch)) r1) =
          some out →
        (out.2.pos ≤ out.2.buffer.length ∨ ¬ r.pos ≤ r.buffer.length) ∧
        ∃ e2, out.2.buffer = r.buffer ++ e2 := by
      intro ch hch
      have hcomp : ∀ out2 : List (List Nat) × UTF8ConsoleInput,
          (out2.2.pos ≤ out2.2.buffer.length ∨ ¬ r1.pos ≤ r1.buffer.length) ∧
            (∃ e2, out2.2.buffer = r1.buffer ++ e2) →
          (out2.2.pos ≤ out2.2.buffer.length ∨ ¬ r.pos ≤ r.buffer.length) ∧
            ∃ e2, out2.2.buffer = r.buffer ++ e2 := by
        rintro out2 ⟨ho1, ⟨e2, ho2⟩⟩
        refine ⟨?_, ⟨e ++ e2, by rw [ho2, hg2, List.append_assoc]⟩⟩
        by_cases hp : r.pos ≤ r.buffer.length
        · rcases ho1 with hq | hq
          · exact Or.inl hq
          · exact absurd (hg1 hp) hq
        · exact Or.inr hp
      split_ifs at hch with c13 cor cemp cbw
      · exact hcomp out (ih eb bw acc line r1 out hch)
      · injection hch with h2
        rw [← h2]
        refine hcomp (acc, r1) ⟨?_, ⟨[], by simp⟩⟩
        by_cases hp1 : r1.pos ≤ r1.buffer.length
        · exact Or.inl hp1
        · exact Or.inr hp1
      · injection hch with h2
        rw [← h2]
        refine hcomp (acc ++ [line], r1) ⟨?_, ⟨[], by simp⟩⟩
        by_cases hp1 : r1.pos ≤ r1.buffer.length
        · exact Or.inl hp1
        · exact Or.inr hp1
      · exact hcomp out (ih eb bw (acc ++ [line]) [] r1 out hch)
      · exact hcomp out (ih eb bw acc (FastString.push_back line (toByte ch)) r1 out hch)
    cases c? with
    | none =>
      simp only [readLinesF, hg] at h
      exact hmain (-1) h
    | some b =>
      simp only [readLinesF, hg] at h
      exact hmain (toSigned b) h

end UTF8ConsoleInput

namespace UTF8ConsoleInput

theorem getD_shift (b l : List Nat) (n : Nat) :
    (b ++ l).getD (b.length + n) 0 = l.getD n 0 := by
  rw [List.getD_eq_getElem?_getD, List.getD_eq_getElem?_getD,
    List.getElem?_append_right (by omega : b.length ≤ b.length + n)]
  simp

theorem bigFuel_shift (b : List Nat) (r : UTF8ConsoleInput) :
    bigFuel (shiftState b r) = bigFuel r := by
  simp [bigFuel, shiftState]
  omega

theorem fill_buffer_shift (b : List Nat) (r : UTF8ConsoleInput) :
    (shiftState b r).fill_buffer_ =
      ((r.fill_buffer_).1, shiftState b (r.fill_buffer_).2) := by
  rcases h : fillLoop chunkSize r.src [] with ⟨chunk, src2, flag⟩
  have hsrc : (shiftState b r).src = r.src := rfl
  simp only [fill_buffer_, hsrc, h]
  split_ifs <;> simp [shiftState, List.append_assoc]

theorem get_shift (b : List Nat) (r : UTF8ConsoleInput) :
    (shiftState b r).get = ((r.get).1, shiftState b (r.get).2) := by
  rcases hf : r.fill_buffer_ with ⟨flag, rf⟩
  have hfs : (shiftState b r).fill_buffer_ = (flag, shiftState b rf) := by
    rw [fill_buffer_shift, hf]
  by_cases hle : r.buffer.length ≤ r.pos
  · have hle2 : (shiftState b r).buffer.length ≤ (shiftState b r).pos := by
      simp [shiftState]
      omega
    by_cases hcond : flag = false ∨ rf.buffer.length ≤ rf.pos
    · have hcond2 : flag = false ∨
          (shiftState b rf).buffer.length ≤ (shiftState b rf).pos := by
        rcases hcond with h | h
        · exact Or.inl h
        · refine Or.inr ?_
          simp [shiftState]
          omega
      have h1 : r.get = (none, rf) := by
        simp only [get, if_pos hle, hf]
        rw [if_pos hcond]
      have h2 : (shiftState b r).get = (none, shiftState b rf) := by
        simp only [get, if_pos hle2, hfs]
        rw [if_pos hcond2]
      rw [h1, h2]
    · have hcond2 : ¬ (flag = false ∨
          (shiftState b rf).buffer.length ≤ (shiftState b rf).pos) := by
        push_neg at hcond ⊢
        refine ⟨hcond.1, ?_⟩
        have := hcond.2
        simp [shiftState]
        omega
      have h1 : r.get = (some (rf.buffer.getD rf.pos 0), { rf with pos := rf.pos + 1 }) := by
        simp only [get, if_pos hle, hf]
        rw [if_neg hcond]
      have h2 : (shiftState b r).get =
          (some ((shiftState b rf).buffer.getD (shiftState b rf).pos 0),
            { shiftState b rf with pos := (shiftState b rf).pos + 1 }) := by
        simp only [get, if_pos hle2, hfs]
        rw [if_neg hcond2]
      have hv : (shiftState b rf).buffer.getD (shiftState b rf).pos 0 =
          rf.buffer.getD rf.pos 0 := getD_shift b rf.buffer rf.pos
      rw [h1, h2, hv]
      simp [shiftState]
      omega
  · have hle2 : ¬ (shiftState b r).buffer.length ≤ (shiftState b r).pos := by
      simp [shiftState]
      omega
    have h1 : r.get = (some (r.buffer.getD r.pos 0), { r with pos := r.pos + 1 }) := by
      simp only [get]
      rw [if_neg hle]
    have h2 : (shiftState b r).get =
        (some ((shiftState b r).buffer.getD (shiftState b r).pos 0),
          { shiftState b r with pos := (shiftState b r).pos + 1 }) := by
      simp only [get]
      rw [if_neg hle2]
    have hv : (shiftState b r).buffer.getD (shiftState b r).pos 0 =
        r.buffer.getD r.pos 0 := getD_shift b r.buffer r.pos
    rw [h1, h2, hv]
    simp [shiftState]
    omega

theorem shift_pos_sub (b : List Nat) (r : UTF8ConsoleInput) (h : 1 ≤ r.pos) :
    shiftState b { r with pos := r.pos - 1 } =
      { shiftState b r with pos := (shiftState b r).pos - 1 } := by
  simp [shiftState]
  omega

theorem skipWSF_shift (fuel : Nat) : ∀ (b : List Nat) (r : UTF8ConsoleInput),
    skipWSF fuel (shiftState b r) = ((skipWSF fuel r).1, shiftState b (skipWSF fuel r).2) := by
  induction fuel with
  | zero => intro b r; simp [skipWSF]
  | succ n ih =>
    intro b r
    rcases hg : r.get with ⟨c?, r1⟩
    have hgs : (shiftState b r).get = (c?, shiftState b r1) := by rw [get_shift, hg]
    cases c? with
    | none => simp [skipWSF, hg, hgs]
    | some c =>
      by_cases hws : is_whitespace_ c
      · simp [skipWSF, hg, hgs, hws, ih]
      · simp [skipWSF, hg, hgs, hws]

theorem collectWordF_shift (fuel : Nat) : ∀ (acc b : List Nat) (r : UTF8ConsoleInput),
    collectWordF fuel acc (shiftState b r) =
      ((collectWordF fuel acc r).1, (collectWordF fuel acc r).2.1,
        shiftState b (collectWordF fuel acc r).2.2) := by
  induction fuel with
  | zero => intro acc b r; simp [collectWordF]
  | succ n ih =>
    intro acc b r
    rcases hg : r.get with ⟨c?, r1⟩
    have hgs : (shiftState b r).get = (c?, shiftState b r1) := by rw [get_shift, hg]
    cases c? with
    | none => simp [collectWordF, hg, hgs]
    | some c =>
      by_cases hws : is_whitespace_ c
      · simp [collectWordF, hg, hgs, hws]
      · simp [collectWordF, hg, hgs, hws, ih]

theorem readLineF_shift (fuel : Nat) : ∀ (acc b : List Nat) (r : UTF8ConsoleInput),
    readLineF fuel acc (shiftState b r) =
      ((readLineF fuel acc r).1, shiftState b (readLineF fuel acc r).2) := by
  induction fuel with
  | zero => intro acc b r; simp [readLineF]
  | succ n ih =>
    intro acc b r
    rcases hg : r.get with ⟨c?, r1⟩
    have hgs : (shiftState b r).get = (c?, shiftState b r1) := by rw [get_shift, hg]
    cases c? with
    | none => simp [readLineF, hg, hgs]
    | some c =>
      by_cases h10 : c = 10
      · simp [readLineF, hg, hgs, h10]
      · simp [readLineF, hg, hgs, h10, ih]

theorem readLinesF_shift (fuel : Nat) : ∀ (eb : Bool) (bw : Int)
    (acc : List (List Nat)) (line b : List Nat) (r : UTF8ConsoleInput),
    readLinesF fuel eb bw acc line (shiftState b r) =
      (readLinesF fuel eb bw acc line r).map fun out => (out.1, shiftState b out.2) := by
  induction fuel with
  | zero => intro eb bw acc line b r; simp [readLinesF]
  | succ n ih =>
    intro eb bw acc line b r
    rcases hg : r.get with ⟨c?, r1⟩
    have hgs : (shiftState b r).get = (c?, shiftState b r1) := by rw [get_shift, hg]
    simp only [readLinesF, hg, hgs]
    split_ifs <;> simp [ih]

theorem readWord_shift (b : List Nat) (r : UTF8ConsoleInput) :
    readWord (shiftState b r) = ((readWord r).1, shiftState b (readWord r).2) := by
  rcases hs : skipWSF (bigFuel r) r with ⟨c?, r1⟩
  have hss : skipWSF (bigFuel (shiftState b r)) (shiftState b r) = (c?, shiftState b r1) := by
    rw [bigFuel_shift, skipWSF_shift, hs]
  cases c? with
  | none =>
    rcases hcw : collectWordF (bigFuel r1) [] r1 with ⟨w, t?, r3⟩
    have hcws : collectWordF (bigFuel (shiftState b r1)) [] (shiftState b r1) =
        (w, t?, shiftState b r3) := by
      rw [bigFuel_shift, collectWordF_shift, hcw]
    cases t? with
    | none => simp [readWord, hs, hss, hcw, hcws]
    | some ch =>
      have hpos3 : 1 ≤ r3.pos := (collectWordF_state (bigFuel r1) [] r1).2.2 w ch r3 hcw
      by_cases hch : ch = 10
      · simp [readWord, hs, hss, hcw, hcws, hch]
      · simp [readWord, hs, hss, hcw, hcws, hch, shift_pos_sub b r3 hpos3]
  | some c =>
    have hpos1 : 1 ≤ r1.pos := (skipWSF_state (bigFuel r) r).2.2 c r1 hs
    have hsub := shift_pos_sub b r1 hpos1
    rcases hcw : collectWordF (bigFuel { r1 with pos := r1.pos - 1 }) []
        { r1 with pos := r1.pos - 1 } with ⟨w, t?, r3⟩
    have hcws : collectWordF (bigFuel (shiftState b { r1 with pos := r1.pos - 1 })) []
        (shiftState b { r1 with pos := r1.pos - 1 }) = (w, t?, shiftState b r3) := by
      rw [bigFuel_shift, collectWordF_shift, hcw]
    rw [hsub] at hcws
    cases t? with
    | none => simp [readWord, hs, hss, hcw, hcws]
    | some ch =>
      have hpos3 : 1 ≤ r3.pos :=
        (collectWordF_state (bigFuel { r1 with pos := r1.pos - 1 }) []
          { r1 with pos := r1.pos - 1 }).2.2 w ch r3 hcw
      by_cases hch : ch = 10
      · simp [readWord, hs, hss, hcw, hcws, hch]
      · simp [readWord, hs, hss, hcw, hcws, hch, shift_pos_sub b r3 hpos3]

theorem readLine_shift (b : List Nat) (r : UTF8ConsoleInput) :
    readLine (shiftState b r) = ((readLine r).1, shiftState b (readLine r).2) := by
  unfold readLine
  rw [bigFuel_shift, readLineF_shift]

theorem readLines_shift (eb : Bool) (bw : Int) (b : List Nat) (r : UTF8ConsoleInput) :
    readLines eb bw (shiftState b r) =
      (readLines eb bw r).map fun out => (out.1, shiftState b out.2) := by
  unfold readLines
  rw [bigFuel_shift, readLinesF_shift]

theorem readWord_state (r : UTF8ConsoleInput) :
    (r.pos ≤ r.buffer.length → (readWord r).2.pos ≤ (readWord r).2.buffer.length) ∧
    ∃ e, (readWord r).2.buffer = r.buffer ++ e := by
  rcases hs : skipWSF (bigFuel r) r with ⟨c?, r1⟩
  obtain ⟨hs1, ⟨e1, hs2⟩, hs3⟩ := skipWSF_state (bigFuel r) r
  rw [hs] at hs1 hs2
  simp only [] at hs1 hs2
  cases c? with
  | none =>
    rcases hcw : collectWordF (bigFuel r1) [] r1 with ⟨w, t?, r3⟩
    obtain ⟨hc1, ⟨e2, hc2⟩, hc3⟩ := collectWordF_state (bigFuel r1) [] r1
    rw [hcw] at hc1 hc2
    simp only [] at hc1 hc2
    have hinv : r.pos ≤ r.buffer.length → r3.pos ≤ r3.buffer.length := by
      intro hp
      rcases hs1 with hq | hq
      · rcases hc1 with hw | hw
        · exact hw
        · exact absurd hq hw
      · exact absurd hp hq
    have hext : r3.buffer = r.buffer ++ (e1 ++ e2) := by
      rw [hc2, hs2, List.append_assoc]
    cases t? with
    | none =>
      have heq : readWord r = (w, r3) := by simp [readWord, hs, hcw]
      rw [heq]
      exact ⟨hinv, e1 ++ e2, hext⟩
    | some ch =>
      by_cases hch : ch = 10
      · have heq : readWord r = (w, r3) := by simp [readWord, hs, hcw, hch]
        rw [heq]
        exact ⟨hinv, e1 ++ e2, hext⟩
      · have heq : readWord r = (w, { r3 with pos := r3.pos - 1 }) := by
          simp [readWord, hs, hcw, hch]
        rw [heq]
        refine ⟨?_, e1 ++ e2, hext⟩
        intro hp
        have := hinv hp
        simp only []
        omega
  | some c =>
    obtain ⟨hc1, ⟨e2, hc2⟩, hc3⟩ :=
      collectWordF_state (bigFuel { r1 with pos := r1.pos - 1 }) [] { r1 with pos := r1.pos - 1 }
    rcases hcw : collectWordF (bigFuel { r1 with pos := r1.pos - 1 }) []
        { r1 with pos := r1.pos - 1 } with ⟨w, t?, r3⟩
    rw [hcw] at hc1 hc2
    simp only [] at hc1 hc2
    have hinv : r.pos ≤ r.buffer.length → r3.pos ≤ r3.buffer.length := by
      intro hp
      rcases hs1 with hq | hq
      · rcases hc1 with hw | hw
        · exact hw
        · exact absurd (Nat.le_trans (Nat.sub_le r1.pos 1) hq) hw
      · exact absurd hp hq
    have hext : r3.buffer = r.buffer ++ (e1 ++ e2) := by
      rw [hc2, hs2, List.append_assoc]
    cases t? with
    | none =>
      have heq : readWord r = (w, r3) := by simp [readWord, hs, hcw]
      rw [heq]
      exact ⟨hinv, e1 ++ e2, hext⟩
    | some ch =>
      by_cases hch : ch = 10
      · have heq : readWord r = (w, r3) := by simp [readWord, hs, hcw, hch]
        rw [heq]
        exact ⟨hinv, e1 ++ e2, hext⟩
      · have heq : readWord r = (w, { r3 with pos := r3.pos - 1 }) := by
          simp [readWord, hs, hcw, hch]
        rw [heq]
        refine ⟨?_, e1 ++ e2, hext⟩
        intro hp
        have := hinv hp
        simp only []
        omega

theorem readLine_state (r : UTF8ConsoleInput) :
    (r.pos ≤ r.buffer.length → (readLine r).2.pos ≤ (readLine r).2.buffer.length) ∧
    ∃ e, (readLine r).2.buffer = r.buffer ++ e := by
  obtain ⟨h1, h2⟩ := readLineF_state (bigFuel r) [] r
  refine ⟨?_, h2⟩
  intro hp
  rcases h1 with hq | hq
  · exact hq
  · exact absurd hp hq

theorem push_back_mem {s : List Nat} {c b : Nat}
    (h : b ∈ FastString.push_back s c) : b ∈ s ∨ b ≠ 0 := by
  unfold FastString.push_back at h
  split_ifs at h with h0
  · exact Or.inl h
  · rcases List.mem_append.1 h with h1 | h1
    · exact Or.inl h1
    · simp at h1
      subst h1
      exact Or.inr h0

theorem fillLoop_chunk_no_zero (fuel : Nat) : ∀ (src acc : List Nat) (b : Nat),
    b ∈ (fillLoop fuel src acc).1 → b ∈ acc ∨ b ≠ 0 := by
  induction fuel with
  | zero =>
    intro src acc b h
    simp only [fillLoop] at h
    exact Or.inl h
  | succ n ih =>
    intro src acc b h
    match src with
    | [] =>
      simp only [fillLoop] at h
      exact Or.inl h
    | ch :: rest =>
      by_cases h255 : ch = 255
      · simp only [fillLoop, if_pos h255] at h
        exact Or.inl h
      · by_cases h10 : ch = 10
        · simp only [fillLoop, if_neg h255, if_pos h10] at h
          exact push_back_mem h
        · simp only [fillLoop, if_neg h255, if_neg h10] at h
          rcases ih rest (FastString.push_back acc ch) b h with h1 | h1
          · exact push_back_mem h1
          · exact Or.inr h1

theorem fill_buffer_no_zero (r : UTF8ConsoleInput) (h : ∀ b ∈ r.buffer, b ≠ 0) :
    ∀ b ∈ (r.fill_buffer_).2.buffer, b ≠ 0 := by
  rcases hf : fillLoop chunkSize r.src [] with ⟨chunk, src2, flag⟩
  have hchunk : ∀ b ∈ chunk, b ≠ 0 := by
    intro b hb
    rcases fillLoop_chunk_no_zero chunkSize r.src [] b (by rw [hf]; exact hb) with h1 | h1
    · simp at h1
    · exact h1
  simp only [fill_buffer_, hf]
  split_ifs
  · exact h
  · exact h
  · intro b hb
    rcases List.mem_append.1 hb with h1 | h1
    · exact h b h1
    · exact hchunk b h1

theorem collectWordF_no_zero (fuel : Nat) : ∀ (acc : List Nat) (r : UTF8ConsoleInput),
    (∀ b ∈ acc, b ≠ 0) → ∀ b ∈ (collectWordF fuel acc r).1, b ≠ 0 := by
  induction fuel with
  | zero =>
    intro acc r ha b hb
    simp only [collectWordF] at hb
    exact ha b hb
  | succ n ih =>
    intro acc r ha b hb
    rcases hg : r.get with ⟨c?, r1⟩
    cases c? with
    | none =>
      simp only [collectWordF, hg] at hb
      exact ha b hb
    | some c =>
      by_cases hws : is_whitespace_ c
      · simp only [collectWordF, hg, hws, if_pos rfl] at hb
        exact ha b hb
      · simp only [collectWordF, hg] at hb
        rw [if_neg (by simp [hws])] at hb
        refine ih (FastString.push_back acc c) r1 ?_ b hb
        intro x hx
        rcases push_back_mem hx with h1 | h1
        · exact ha x h1
        · exact h1

theorem readWord_no_zero (r : UTF8ConsoleInput) : ∀ b ∈ (readWord r).1, b ≠ 0 := by
  rcases hs : skipWSF (bigFuel r) r with ⟨c?, r1⟩
  cases c? with
  | none =>
    rcases hcw : collectWordF (bigFuel r1) [] r1 with ⟨w, t?, r3⟩
    have h1 : (readWord r).1 = w := by
      cases t? with
      | none => simp [readWord, hs, hcw]
      | some ch => by_cases hch : ch = 10 <;> simp [readWord, hs, hcw, hch]
    intro b hb
    rw [h1] at hb
    exact collectWordF_no_zero (bigFuel r1) [] r1 (by simp) b (by rw [hcw]; exact hb)
  | some c =>
    rcases hcw : collectWordF (bigFuel { r1 with pos := r1.pos - 1 }) []
        { r1 with pos := r1.pos - 1 } with ⟨w, t?, r3⟩
    have h1 : (readWord r).1 = w := by
      cases t? with
      | none => simp [readWord, hs, hcw]
      | some ch => by_cases hch : ch = 10 <;> simp [readWord, hs, hcw, hch]
    intro b hb
    rw [h1] at hb
    exact collectWordF_no_zero (bigFuel { r1 with pos := r1.pos - 1 }) []
      { r1 with pos := r1.pos - 1 } (by simp) b (by rw [hcw]; exact hb)

theorem readLineF_no_zero (fuel : Nat) : ∀ (acc : List Nat) (r : UTF8ConsoleInput),
    (∀ b ∈ acc, b ≠ 0) → ∀ b ∈ (readLineF fuel acc r).1, b ≠ 0 := by
  induction fuel with
  | zero =>
    intro acc r ha b hb
    simp only [readLineF] at hb
    exact ha b hb
  | succ n ih =>
    intro acc r ha b hb
    rcases hg : r.get with ⟨c?, r1⟩
    cases c? with
    | none =>
      simp only [readLineF, hg] at hb
      exact ha b hb
    | some c =>
      by_cases h10 : c = 10
      · simp only [readLineF, hg, h10, if_pos rfl] at hb
        exact ha b hb
      · simp only [readLineF, hg] at hb
        rw [if_neg (by simp [h10])] at hb
        by_cases h13 : c = 13
        · rw [if_pos h13] at hb
          exact ih acc r1 ha b hb
        · rw [if_neg h13] at hb
          refine ih (FastString.push_back acc c) r1 ?_ b hb
          intro x hx
          rcases push_back_mem hx with h1 | h1
          · exact ha x h1
          · exact h1

theorem readLine_no_zero (r : UTF8ConsoleInput) : ∀ b ∈ (readLine r).1, b ≠ 0 := by
  exact readLineF_no_zero (bigFuel r) [] r (by simp)

theorem readLinesF_no_zero (fuel : Nat) : ∀ (eb : Bool) (bw : Int)
    (acc : List (List Nat)) (line : List Nat) (r : UTF8ConsoleInput)
    (out : List (List Nat) × UTF8ConsoleInput),
    readLinesF fuel eb bw acc line r = some out →
    (∀ l ∈ acc, ∀ b ∈ l, b ≠ 0) → (∀ b ∈ line, b ≠ 0) →
    ∀ l ∈ out.1, ∀ b ∈ l, b ≠ 0 := by
  induction fuel with
  | zero => intro eb bw acc line r out h _ _; simp [readLinesF] at h
  | succ n ih =>
    intro eb bw acc line r out h hacc hline
    rcases hg : r.get with ⟨c?, r1⟩
    have hmain : ∀ ch : Int,
        (if ch = 13 then readLinesF n eb bw acc line r1
         else if ch = 10 ∨ ch = bw then
           if eb = true ∧ line = [] then some (acc, r1)
           else if ch = bw then some (acc ++ [line], r1)
           else readLinesF n eb bw (acc ++ [line]) [] r1
         else readLinesF n eb bw acc (FastString.push_back line (toByte ch)) r1) =
          some out →
        ∀ l ∈ out.1, ∀ b ∈ l, b ≠ 0 := by
      intro ch hch
      have haccline : ∀ l ∈ acc ++ [line], ∀ b ∈ l, b ≠ 0 := by
        intro l hl
        rcases List.mem_append.1 hl with h1 | h1
        · exact hacc l h1
        · simp at h1
          subst h1
          exact hline
      split_ifs at hch with c13 cor cemp cbw
      · exact ih eb bw acc line r1 out hch hacc hline
      · injection hch with h2
        rw [← h2]
        exact hacc
      · injection hch with h2
        rw [← h2]
        exact haccline
      · exact ih eb bw (acc ++ [line]) [] r1 out hch haccline (by simp)
      · refine ih eb bw acc (FastString.push_back line (toByte ch)) r1 out hch hacc ?_
        intro x hx
        rcases push_back_mem hx with h1 | h1
        · exact hline x h1
        · exact h1
    cases c? with
    | none =>
      simp only [readLinesF, hg] at h
      exact hmain (-1) h
    | some b =>
      simp only [readLinesF, hg] at h
      exact hmain (toSigned b) h

theorem readLines_no_zero (eb : Bool) (bw : Int) (r : UTF8ConsoleInput)
    (out : List (List Nat) × UTF8ConsoleInput) (h : readLines eb bw r = some out) :
    ∀ l ∈ out.1, ∀ b ∈ l, b ≠ 0 :=
  readLinesF_no_zero (bigFuel r) eb bw [] [] r out h (by simp) (by simp)

end UTF8ConsoleInput

/-! ### Claims about the reader -/

open UTF8ConsoleInput in
/-- C4 (amended: restricted to input streams without 0x00 and 0xFF bytes,
which the reader mangles, see claim_C4_counterexample and claim_C6): readWord
skips leading whitespace, returns the maximal run of non-whitespace bytes,
and leaves the terminating whitespace byte unconsumed unless it is a line
feed, which is consumed; on "  hello   world\n" two calls yield "hello" and
"world" and the trailing newline is consumed. -/
theorem claim_C4_readWord :
    (∀ r : UTF8ConsoleInput, r.pos ≤ r.buffer.length → CleanStream r.remaining →
      ∃ r2, readWord r = (specWord r.remaining, r2) ∧
        r2.remaining = specWordRest r.remaining ∧
        r2.pos ≤ r2.buffer.length ∧ CleanStream r2.remaining ∧
        ∃ ext, r2.buffer = r.buffer ++ ext) ∧
    (readWord ⟨0, [], [32,32,104,101,108,108,111,32,32,32,119,111,114,108,100,10]⟩).1
      = [104, 101, 108, 108, 111] ∧
    (readWord (readWord
      ⟨0, [], [32,32,104,101,108,108,111,32,32,32,119,111,114,108,100,10]⟩).2).1
      = [119, 111, 114, 108, 100] ∧
    (readWord (readWord
      ⟨0, [], [32,32,104,101,108,108,111,32,32,32,119,111,114,108,100,10]⟩).2).2.remaining
      = [] ∧
    (readWord (readWord
      ⟨0, [], [32,32,104,101,108,108,111,32,32,32,119,111,114,108,100,10]⟩).2).2.pos
      = (readWord (readWord
        ⟨0, [], [32,32,104,101,108,108,111,32,32,32,119,111,114,108,100,10]⟩).2).2.buffer.length :=
  ⟨readWord_spec, by decide, by decide, by decide, by decide⟩

open UTF8ConsoleInput in
/-- C4 witness: the general part of claim_C4_readWord applied to the concrete
example reader. -/
theorem claim_C4_readWord_witness :
    ((⟨0, [], [32,32,104,101,108,108,111,32,32,32,119,111,114,108,100,10]⟩ :
        UTF8ConsoleInput).pos ≤
      (⟨0, [], [32,32,104,101,108,108,111,32,32,32,119,111,114,108,100,10]⟩ :
        UTF8ConsoleInput).buffer.length) ∧
    CleanStream (⟨0, [], [32,32,104,101,108,108,111,32,32,32,119,111,114,108,100,10]⟩ :
      UTF8ConsoleInput).remaining ∧
    ∃ r2, readWord
        ⟨0, [], [32,32,104,101,108,108,111,32,32,32,119,111,114,108,100,10]⟩ =
        (specWord (⟨0, [], [32,32,104,101,108,108,111,32,32,32,119,111,114,108,100,10]⟩ :
          UTF8ConsoleInput).remaining, r2) ∧
      r2.remaining = specWordRest
        (⟨0, [], [32,32,104,101,108,108,111,32,32,32,119,111,114,108,100,10]⟩ :
          UTF8ConsoleInput).remaining ∧
      r2.pos ≤ r2.buffer.length ∧ CleanStream r2.remaining ∧
      ∃ ext, r2.buffer =
        (⟨0, [], [32,32,104,101,108,108,111,32,32,32,119,111,114,108,100,10]⟩ :
          UTF8ConsoleInput).buffer ++ ext :=
  ⟨by decide, by decide, claim_C4_readWord.1 _ (by decide) (by decide)⟩

open UTF8ConsoleInput in
/-- C4 counterexample: on the byte stream a NUL b SPACE the word the claim
predicts is "a\0b" (NUL is not whitespace), but the reader silently drops
the NUL while buffering and returns "ab": the claim fails for streams that
contain NUL bytes. -/
theorem claim_C4_readWord_counterexample :
    (readWord ⟨0, [], [97, 0, 98, 32]⟩).1 ≠
      specWord (⟨0, [], [97, 0, 98, 32]⟩ : UTF8ConsoleInput).remaining := by
  decide

open UTF8ConsoleInput in
/-- C7 (amended: restricted to input streams without 0x00 and 0xFF bytes,
which the reader mangles): readLine consumes bytes up to and including the
next line feed (or to end of input), drops carriage returns, and returns the
consumed bytes without the line feed; on "abc\r\ndef" successive calls give
"abc", "def", and then the empty result at end of input. -/
theorem claim_C7_readLine :
    (∀ r : UTF8ConsoleInput, r.pos ≤ r.buffer.length → CleanStream r.remaining →
      ∃ r2, readLine r = (specLine r.remaining, r2) ∧
        r2.remaining = specLineRest r.remaining ∧
        r2.pos ≤ r2.buffer.length ∧ CleanStream r2.remaining ∧
        ∃ ext, r2.buffer = r.buffer ++ ext) ∧
    (readLine ⟨0, [], [97,98,99,13,10,100,101,102]⟩).1 = [97, 98, 99] ∧
    (readLine (readLine ⟨0, [], [97,98,99,13,10,100,101,102]⟩).2).1
      = [100, 101, 102] ∧
    (readLine (readLine ⟨0, [], [97,98,99,13,10,100,101,102]⟩).2).2.remaining = [] ∧
    (readLine (readLine (readLine ⟨0, [], [97,98,99,13,10,100,101,102]⟩).2).2).1 = [] :=
  ⟨readLine_spec, by decide, by decide, by decide, by decide⟩

open UTF8ConsoleInput in
/-- C7 witness: the general part of claim_C7_readLine applied to the concrete
example reader. -/
theorem claim_C7_readLine_witness :
    ((⟨0, [], [97,98,99,13,10,100,101,102]⟩ : UTF8ConsoleInput).pos ≤
      (⟨0, [], [97,98,99,13,10,100,101,102]⟩ : UTF8ConsoleInput).buffer.length) ∧
    CleanStream (⟨0, [], [97,98,99,13,10,100,101,102]⟩ : UTF8ConsoleInput).remaining ∧
    ∃ r2, readLine ⟨0, [], [97,98,99,13,10,100,101,102]⟩ =
        (specLine (⟨0, [], [97,98,99,13,10,100,101,102]⟩ :
          UTF8ConsoleInput).remaining, r2) ∧
      r2.remaining = specLineRest
        (⟨0, [], [97,98,99,13,10,100,101,102]⟩ : UTF8ConsoleInput).remaining ∧
      r2.pos ≤ r2.buffer.length ∧ CleanStream r2.remaining ∧
      ∃ ext, r2.buffer =
        (⟨0, [], [97,98,99,13,10,100,101,102]⟩ : UTF8ConsoleInput).buffer ++ ext :=
  ⟨by decide, by decide, claim_C7_readLine.1 _ (by decide) (by decide)⟩

open UTF8ConsoleInput in
/-- C7 counterexample: on the byte stream a NUL b LF the claim predicts the
line "a\0b", but the reader silently drops the NUL while buffering and
returns "ab": the claim fails for streams that contain NUL bytes. -/
theorem claim_C7_readLine_counterexample :
    (readLine ⟨0, [], [97, 0, 98, 10]⟩).1 ≠
      specLine (⟨0, [], [97, 0, 98, 10]⟩ : UTF8ConsoleInput).remaining := by
  decide

open UTF8ConsoleInput in
/-- C6: evaluation of the refill at the failing input 0x41 0xFF.  The source
compares the signed char just read against EOF, so the 0xFF byte is mistaken
for end of input: fill_buffer_ reports failure, the byte 0x41 obtained in
this refill is discarded instead of appended, and get returns the end marker
even though the source still held bytes.  This contradicts the claim (and
fill_buffer_'s own documentation, which says false means read failure or end
of input). -/
theorem claim_C6_refill_eval :
    fill_buffer_ ⟨0, [], [0x41, 0xFF]⟩ = (false, ⟨0, [], []⟩) ∧
    get ⟨0, [], [0x41, 0xFF]⟩ = (none, ⟨0, [], []⟩) := by
  constructor <;> decide

open UTF8ConsoleInput in
/-- C8: readLines collects lines in read order; with stopOnEmptyLine set an
empty current line stops the loop before being recorded; a byte matching the
user break_word records the line so far and stops immediately; on input
"a\nb\n\nc\n" with stopOnEmptyLine the result is exactly ["a", "b"]. -/
theorem claim_C8_readLines :
    readLines true (-1) ⟨0, [], [97, 10, 98, 10, 10, 99, 10]⟩ =
      some ([[97], [98]], ⟨5, [97, 10, 98, 10, 10], [99, 10]⟩) ∧
    (∀ (fuel : Nat) (eb : Bool) (bw : Int) (acc : List (List Nat)) (line : List Nat)
        (r r2 : UTF8ConsoleInput) (c : Nat),
      r.get = (some c, r2) → toSigned c ≠ 13 →
      (toSigned c = 10 ∨ toSigned c = bw) → eb = true → line = [] →
      readLinesF (fuel + 1) eb bw acc line r = some (acc, r2)) ∧
    (∀ (fuel : Nat) (eb : Bool) (bw : Int) (acc : List (List Nat)) (line : List Nat)
        (r r2 : UTF8ConsoleInput) (c : Nat),
      r.get = (some c, r2) → toSigned c ≠ 13 → toSigned c = bw →
      ¬ (eb = true ∧ line = []) →
      readLinesF (fuel + 1) eb bw acc line r = some (acc ++ [line], r2)) := by
  refine ⟨by decide, ?_, ?_⟩
  · intro fuel eb bw acc line r r2 c hg h13 hor heb hline
    simp [readLinesF, hg, h13, hor, heb, hline]
  · intro fuel eb bw acc line r r2 c hg h13 hbw hne
    rw [hbw] at h13
    simp [readLinesF, hg, hbw, h13, hne]

open UTF8ConsoleInput in
/-- C8 witness: the two stop rules of claim_C8_readLines applied to concrete
readers (a line feed with an empty current line under stopOnEmptyLine, and a
break_word byte q recording the pending line). -/
theorem claim_C8_readLines_witness :
    get ⟨0, [10], []⟩ = (some 10, ⟨1, [10], []⟩) ∧
    readLinesF 1 true (-1) [[97]] [] ⟨0, [10], []⟩ = some ([[97]], ⟨1, [10], []⟩) ∧
    get ⟨0, [113], []⟩ = (some 113, ⟨1, [113], []⟩) ∧
    readLinesF 1 false 113 [] [97] ⟨0, [113], []⟩ = some ([[97]], ⟨1, [113], []⟩) :=
  ⟨by decide,
    claim_C8_readLines.2.1 0 true (-1) [[97]] [] _ _ 10 (by decide) (by decide)
      (Or.inl (by decide)) rfl rfl,
    by decide,
    claim_C8_readLines.2.2 0 false 113 [] [97] _ _ 113 (by decide) (by decide)
      (by decide) (by simp)⟩

open UTF8ConsoleInput in
/-- C9: every reader operation (byte fetch, readWord, readLine, readLines,
clear) preserves the state invariant cursor ≤ buffer length (the lower bound
0 ≤ cursor holds because the cursor is a Nat), refilling only appends bytes
to the buffer (the old buffer is always a prefix of the new one), and the
bytes before the cursor are never decoded again: replacing the consumed
prefix of the buffer by arbitrary other bytes (shiftState) changes no result
and commutes with every operation, so no later operation ever looks at it. -/
theorem claim_C9_reader_invariants :
    (∀ r : UTF8ConsoleInput, r.pos ≤ r.buffer.length →
      (r.get).2.pos ≤ (r.get).2.buffer.length ∧
      (readWord r).2.pos ≤ (readWord r).2.buffer.length ∧
      (readLine r).2.pos ≤ (readLine r).2.buffer.length ∧
      (∀ eb bw out, readLines eb bw r = some out →
        out.2.pos ≤ out.2.buffer.length) ∧
      r.clear.pos ≤ r.clear.buffer.length) ∧
    (∀ r : UTF8ConsoleInput,
      (∃ e, (r.fill_buffer_).2.buffer = r.buffer ++ e) ∧
      (∃ e, (r.get).2.buffer = r.buffer ++ e) ∧
      (∃ e, (readWord r).2.buffer = r.buffer ++ e) ∧
      (∃ e, (readLine r).2.buffer = r.buffer ++ e) ∧
      (∀ eb bw out, readLines eb bw r = some out →
        ∃ e, out.2.buffer = r.buffer ++ e)) ∧
    (∀ (b : List Nat) (r : UTF8ConsoleInput),
      (shiftState b r).get = ((r.get).1, shiftState b (r.get).2) ∧
      readWord (shiftState b r) = ((readWord r).1, shiftState b (readWord r).2) ∧
      readLine (shiftState b r) = ((readLine r).1, shiftState b (readLine r).2) ∧
      ∀ eb bw, readLines eb bw (shiftState b r) =
        (readLines eb bw r).map fun out => (out.1, shiftState b out.2)) := by
  refine ⟨?_, ?_, ?_⟩
  · intro r hp
    refine ⟨(get_state r).1 hp, (readWord_state r).1 hp, (readLine_state r).1 hp, ?_, ?_⟩
    · intro eb bw out h
      rw [readLines] at h
      rcases (readLinesF_state (bigFuel r) eb bw [] [] r out h).1 with hq | hq
      · exact hq
      · exact absurd hp hq
    · simp [clear]
  · intro r
    refine ⟨(fill_buffer_state r).2, (get_state r).2.1, (readWord_state r).2,
      (readLine_state r).2, ?_⟩
    intro eb bw out h
    rw [readLines] at h
    exact (readLinesF_state (bigFuel r) eb bw [] [] r out h).2
  · intro b r
    exact ⟨get_shift b r, readWord_shift b r, readLine_shift b r,
      fun eb bw => readLines_shift eb bw b r⟩

open UTF8ConsoleInput in
/-- C9 witness: the invariant and the consumed-prefix independence applied to
a concrete reader: readWord keeps the cursor inside the buffer, and prefixing
the already-consumed bytes with an extra byte 0x78 changes nothing. -/
theorem claim_C9_reader_invariants_witness :
    (readWord ⟨0, [], [97, 32, 98]⟩).2.pos ≤
      (readWord ⟨0, [], [97, 32, 98]⟩).2.buffer.length ∧
    readWord (shiftState [120] ⟨0, [], [97, 32, 98]⟩) =
      ((readWord ⟨0, [], [97, 32, 98]⟩).1,
        shiftState [120] (readWord ⟨0, [], [97, 32, 98]⟩).2) :=
  ⟨(claim_C9_reader_invariants.1 ⟨0, [], [97, 32, 98]⟩ (by decide)).2.1,
   (claim_C9_reader_invariants.2.2 [120] ⟨0, [], [97, 32, 98]⟩).2.1⟩

open UTF8ConsoleInput in
/-- C10: FastString::push_back silently drops the NUL character, so a 0x00
byte from the source never enters the buffer, no result of readWord,
readLine or readLines ever contains a 0x00 byte, NUL is not whitespace and
not a line terminator: it simply vanishes, as the concrete runs show
(source a NUL b LF buffers as a b LF; readLine returns ab; readWord on
a NUL b SP c returns ab). -/
theorem claim_C10_nul_vanishes :
    (∀ s : List Nat, FastString.push_back s 0 = s) ∧
    (∀ r : UTF8ConsoleInput, (∀ b ∈ r.buffer, b ≠ 0) →
      ∀ b ∈ (r.fill_buffer_).2.buffer, b ≠ 0) ∧
    (∀ r : UTF8ConsoleInput, ∀ b ∈ (readWord r).1, b ≠ 0) ∧
    (∀ r : UTF8ConsoleInput, ∀ b ∈ (readLine r).1, b ≠ 0) ∧
    (∀ (eb : Bool) (bw : Int) (r : UTF8ConsoleInput) out,
      readLines eb bw r = some out → ∀ l ∈ out.1, ∀ b ∈ l, b ≠ 0) ∧
    is_whitespace_ 0 = false ∧
    (fill_buffer_ ⟨0, [], [97, 0, 98, 10]⟩).2.buffer = [97, 98, 10] ∧
    (readLine ⟨0, [], [97, 0, 98, 10]⟩).1 = [97, 98] ∧
    (readWord ⟨0, [], [97, 0, 98, 32, 99]⟩).1 = [97, 98] := by
  refine ⟨fun s => by simp [FastString.push_back], fill_buffer_no_zero,
    readWord_no_zero, readLine_no_zero,
    fun eb bw r out h => readLines_no_zero eb bw r out h, by decide, ?_, ?_, ?_⟩
  · decide
  · decide
  · decide

open UTF8ConsoleInput in
/-- C10 witness: the no-NUL guarantee applied to the concrete readWord run on
source a NUL b SP: the returned word contains the byte b, which is not NUL. -/
theorem claim_C10_nul_vanishes_witness :
    98 ∈ (readWord ⟨0, [], [97, 0, 98, 32]⟩).1 ∧ (98 : Nat) ≠ 0 :=
  ⟨by decide, claim_C10_nul_vanishes.2.2.1 ⟨0, [], [97, 0, 98, 32]⟩ 98 (by decide)⟩
